import Mathlib

/-!
Verification of the snapshot reconciliation engine of the sheet-sql-connect
repository: row hashing (`computeRowHash`), pure diff computation
(`computeDiff`), transactional diff application against the snapshot store
(`applyDiff`, `storeSnapshot`, `getSnapshot`), and the per-key advisory sync
lock (`acquireSyncLock`, `withSyncLock`).

The JavaScript sources are embedded shallowly: rows become finite maps from
column names to optional string values (a JS value is observed only through
`String(value)`, with `null`/`undefined` as `none`); the relational snapshot
table becomes an explicit state record; SQL statements become pure functions
on that state; thrown errors become `Except.error`; SHA-256 is implemented
bit-compatibly over `Nat` arithmetic with explicit reduction modulo `2 ^ 32`.
-/

/-! ## Sync lock (src/lib/sync-lock.js)

The in-memory lock store is `const syncLocks = new Map()`, keyed by sheet id.
Only key membership is ever consulted (`has` / `set` / `delete`); the stored
promise value matters only for `waitForSync`'s timing, so the map is embedded
as the list of currently held keys (a JS `Map` holds each key at most once).
-/

/-- `syncLocks.has(sheetId)` — membership of a key in the lock map
(`isSyncInProgress` in the source). -/
def isSyncInProgress (locks : List String) (sheetId : String) : Bool :=
  locks.contains sheetId

/-- `acquireSyncLock(sheetId)`: if the key is already held, throw a contention
error immediately; otherwise record the key and (in the source) return a
release closure. The embedding returns the updated lock map; releasing is
`releaseSyncLock`. -/
def acquireSyncLock (locks : List String) (sheetId : String) :
    Except String (List String) :=
  if locks.contains sheetId then
    Except.error ("Sync already in progress for sheet " ++ sheetId)
  else
    Except.ok (sheetId :: locks)

/-- The release closure returned by `acquireSyncLock`: `syncLocks.delete(sheetId)`
(a JS `Map` holds a key at most once, so deleting is erasing one occurrence). -/
def releaseSyncLock (locks : List String) (sheetId : String) : List String :=
  locks.erase sheetId

/-- `withSyncLock(sheetId, syncFunction)`: acquire, run the body, and release in
a `finally`. The body never touches the lock map (the reconciliation routine is
lock-agnostic), so it is embedded as a thunk returning `Except`. On contention
the source waits via `waitForSync` — after which the key is gone from the map
(either the holder released it, or the timeout handler cleared it defensively)
— and rethrows the contention error without retrying. -/
def withSyncLock {α : Type} (sheetId : String) (syncFunction : Unit → Except String α)
    (locks : List String) : Except String α × List String :=
  match acquireSyncLock locks sheetId with
  | Except.error e =>
      -- contention path: `releaseLock` was never assigned, the `finally` is a
      -- no-op, and `waitForSync` leaves the key cleared before the rethrow
      (Except.error e, locks.erase sheetId)
  | Except.ok locked =>
      match syncFunction () with
      | Except.ok a => (Except.ok a, releaseSyncLock locked sheetId)
      | Except.error e => (Except.error e, releaseSyncLock locked sheetId)

/-- C8: `acquireSyncLock(key)` throws a contention error if and only if `key` is
already present in the lock map (and it never blocks: the embedding is a total
function); when the key is absent it adds exactly that key and returns the
release handle, leaving the membership of every other key unchanged. -/
theorem C8_acquire_lock_contention (locks : List String) (key : String) :
    ((∃ e, acquireSyncLock locks key = Except.error e) ↔ locks.contains key = true) ∧
    (locks.contains key = false →
      acquireSyncLock locks key = Except.ok (key :: locks) ∧
      ∀ k, k ≠ key → (key :: locks).contains k = locks.contains k) := by
  constructor
  · constructor
    · intro ⟨e, he⟩
      by_contra hmem
      have hnot : key ∉ locks := by simpa using hmem
      simp [acquireSyncLock, hnot] at he
    · intro hmem
      have hin : key ∈ locks := by simpa using hmem
      exact ⟨"Sync already in progress for sheet " ++ key, by simp [acquireSyncLock, hin]⟩
  · intro hmem
    have hnot : key ∉ locks := by simpa using hmem
    refine ⟨by simp [acquireSyncLock, hnot], ?_⟩
    intro k hk
    simp [List.contains_cons, hk]

/-- Concrete instantiation of `C8_acquire_lock_contention`: acquiring the free
key `"s"` on the singleton map `["t"]` succeeds, adds only `"s"`, and leaves
the membership of `"t"` as it was. -/
theorem C8_acquire_lock_contention_witness :
    acquireSyncLock ["t"] "s" = Except.ok ["s", "t"] ∧
    (["s", "t"].contains "t" = (["t"] : List String).contains "t") := by
  have h := (C8_acquire_lock_contention ["t"] "s").2 (by decide)
  exact ⟨h.1, h.2 "t" (by decide)⟩

/-- C9: when `withSyncLock(key, fn)` acquires the lock (the key was free), then
whether `fn` returns normally (its result is returned) or throws (the error
propagates), the key is no longer in the lock map when `withSyncLock`
terminates. -/
theorem C9_with_lock_releases {α : Type} (locks : List String) (key : String)
    (fn : Unit → Except String α) (hfree : locks.contains key = false) :
    (withSyncLock key fn locks).1 = fn () ∧
    ((withSyncLock key fn locks).2).contains key = locks.contains key := by
  have hnot : key ∉ locks := by simpa using hfree
  have hacq : acquireSyncLock locks key = Except.ok (key :: locks) := by
    simp [acquireSyncLock, hnot]
  have herase : (key :: locks).erase key = locks := by
    simp [List.erase_cons]
  constructor
  · cases hfn : fn () with
    | ok a => simp [withSyncLock, hacq, releaseSyncLock, hfn]
    | error e => simp [withSyncLock, hacq, releaseSyncLock, hfn]
  · cases hfn : fn () with
    | ok a => simp [withSyncLock, hacq, releaseSyncLock, hfn, herase]
    | error e => simp [withSyncLock, hacq, releaseSyncLock, hfn, herase]

/-- Concrete instantiation of `C9_with_lock_releases`: running a throwing body
under the lock for key `"s"` propagates the error and leaves `"s"` unlocked. -/
theorem C9_with_lock_releases_witness :
    (withSyncLock "s" (fun _ => (Except.error "boom" : Except String Nat)) []).1 =
      Except.error "boom" ∧
    ((withSyncLock "s" (fun _ => (Except.error "boom" : Except String Nat)) []).2).contains
      "s" = false := by
  have h := C9_with_lock_releases []
    "s" (fun _ => (Except.error "boom" : Except String Nat)) (by decide)
  exact ⟨h.1, h.2⟩

/-! ## Row hashing (diff engine, `computeRowHash`)

A JS row object is observed by the hasher only through `row[col]` for column
names `col`, and each value only through `String(value)` (with `null` and
`undefined` both normalized to the empty string). A row is therefore embedded
as a map from column name to `Option String`, `none` standing for
null/undefined/absent. JS property insertion order is invisible in this
embedding, which is exactly the determinism the sorted canonical form buys.
-/

/-- A sheet or snapshot row as the hasher sees it. -/
def Row : Type := String → Option String

/-- Value normalization: `value === null || value === undefined ? '' : String(value)`. -/
def normVal (v : Option String) : String := v.getD ""

/-- The key set of the `normalized` object, sorted: `Object.keys(normalized).sort()`.
`normalized` has one key per distinct entry of `columns` (later duplicate
assignments overwrite, leaving a single key), and the default JS `sort()` is
lexicographic, so the result is the sorted deduplication of `columns`. -/
def sortedKeys (columns : List String) : List String :=
  (columns.dedup).insertionSort (fun a b => a ≤ b)

/-- `Array.prototype.join('|')` on the list of `"key:value"` segments. -/
def joinPipe : List String → String
  | [] => ""
  | [s] => s
  | s :: t :: rest => s ++ "|" ++ joinPipe (t :: rest)

/-- The canonical pre-hash representation built by `computeRowHash`:
`sortedKeys.map(key => key + ":" + normalized[key]).join('|')`, where
`normalized[key]` is the normalized value of `row[key]`. -/
def normalizedString (row : Row) (columns : List String) : String :=
  joinPipe ((sortedKeys columns).map (fun key => key ++ ":" ++ normVal (row key)))

/-! ### SHA-256 (`crypto.createHash('sha256').update(s, 'utf8').digest('hex')`)

Implemented over `Nat` with explicit reduction modulo `2 ^ 32`. -/

/-- Reduce a word to 32 bits. -/
def w32 (n : Nat) : Nat := n % 4294967296

/-- Right rotation of a 32-bit word by `k` bits. -/
def rotr32 (k n : Nat) : Nat := w32 ((n >>> k) ||| (n <<< (32 - k)))

/-- Bitwise complement on 32 bits. -/
def not32 (n : Nat) : Nat := n ^^^ 4294967295

/-- UTF-8 encoding of one unicode scalar value, as bytes. -/
def utf8Char (c : Char) : List Nat :=
  let n := c.toNat
  if n < 128 then [n]
  else if n < 2048 then [192 + n / 64, 128 + n % 64]
  else if n < 65536 then [224 + n / 4096, 128 + n / 64 % 64, 128 + n % 64]
  else [240 + n / 262144, 128 + n / 4096 % 64, 128 + n / 64 % 64, 128 + n % 64]

/-- UTF-8 encoding of a string, as a byte list (`Buffer.from(s, 'utf8')`). -/
def strUtf8 (s : String) : List Nat := s.data.flatMap utf8Char

/-- Big-endian byte rendering of a value in a fixed number of bytes. -/
def beBytes : Nat → Nat → List Nat
  | 0, _ => []
  | k + 1, v => beBytes k (v / 256) ++ [v % 256]

/-- SHA-256 message padding: append `0x80`, zero bytes up to 56 mod 64, and the
bit length as a 64-bit big-endian integer. -/
def sha256Pad (msg : List Nat) : List Nat :=
  msg ++ 128 :: List.replicate ((64 + 55 - msg.length % 64) % 64) 0 ++
    beBytes 8 (8 * msg.length)

/-- Group a byte list into big-endian 32-bit words. -/
def bytesToWords : List Nat → List Nat
  | b0 :: b1 :: b2 :: b3 :: rest =>
      (((b0 * 256 + b1) * 256 + b2) * 256 + b3) :: bytesToWords rest
  | _ => []

/-- The 64 SHA-256 round constants. -/
def sha256K : List Nat :=
  [1116352408, 1899447441, 3049323471, 3921009573,
   961987163, 1508970993, 2453635748, 2870763221,
   3624381080, 310598401, 607225278, 1426881987,
   1925078388, 2162078206, 2614888103, 3248222580,
   3835390401, 4022224774, 264347078, 604807628,
   770255983, 1249150122, 1555081692, 1996064986,
   2554220882, 2821834349, 2952996808, 3210313671,
   3336571891, 3584528711, 113926993, 338241895,
   666307205, 773529912, 1294757372, 1396182291,
   1695183700, 1986661051, 2177026350, 2456956037,
   2730485921, 2820302411, 3259730800, 3345764771,
   3516065817, 3600352804, 4094571909, 275423344,
   430227734, 506948616, 659060556, 883997877,
   958139571, 1322822218, 1537002063, 1747873779,
   1955562222, 2024104815, 2227730452, 2361852424,
   2428436474, 2756734187, 3204031479, 3329325298]

/-- Working state of the SHA-256 compression function. -/
structure Sha256State where
  sa : Nat
  sb : Nat
  sc : Nat
  sd : Nat
  se : Nat
  sf : Nat
  sg : Nat
  sh : Nat
deriving DecidableEq

/-- The SHA-256 initial hash value. -/
def sha256Init : Sha256State :=
  ⟨1779033703, 3144134277, 1013904242, 2773480762,
   1359893119, 2600822924, 528734635, 1541459225⟩

/-- Message-schedule extension: the accumulator holds the schedule so far in
reverse order, and 48 new words are appended to the initial 16. -/
def sha256Extend (acc : List Nat) : Nat → List Nat
  | 0 => acc.reverse
  | n + 1 =>
      let s0 := rotr32 7 (acc.getD 14 0) ^^^ rotr32 18 (acc.getD 14 0) ^^^
        (acc.getD 14 0 >>> 3)
      let s1 := rotr32 17 (acc.getD 1 0) ^^^ rotr32 19 (acc.getD 1 0) ^^^
        (acc.getD 1 0 >>> 10)
      sha256Extend (w32 (s1 + acc.getD 6 0 + s0 + acc.getD 15 0) :: acc) n

/-- One SHA-256 round on the working state, for one (constant, schedule word)
pair. -/
def sha256Round (st : Sha256State) (kw : Nat × Nat) : Sha256State :=
  let bigS1 := rotr32 6 st.se ^^^ rotr32 11 st.se ^^^ rotr32 25 st.se
  let ch := (st.se &&& st.sf) ^^^ (not32 st.se &&& st.sg)
  let t1 := w32 (st.sh + bigS1 + ch + kw.1 + kw.2)
  let bigS0 := rotr32 2 st.sa ^^^ rotr32 13 st.sa ^^^ rotr32 22 st.sa
  let maj := (st.sa &&& st.sb) ^^^ (st.sa &&& st.sc) ^^^ (st.sb &&& st.sc)
  let t2 := w32 (bigS0 + maj)
  ⟨w32 (t1 + t2), st.sa, st.sb, st.sc, w32 (st.sd + t1), st.se, st.sf, st.sg⟩

/-- Compression of one 64-byte chunk (given as its 16 words) into the state. -/
def sha256Compress (st : Sha256State) (chunkWords : List Nat) : Sha256State :=
  let ws := sha256Extend chunkWords.reverse 48
  let fin := (sha256K.zip ws).foldl sha256Round st
  ⟨w32 (st.sa + fin.sa), w32 (st.sb + fin.sb), w32 (st.sc + fin.sc),
   w32 (st.sd + fin.sd), w32 (st.se + fin.se), w32 (st.sf + fin.sf),
   w32 (st.sg + fin.sg), w32 (st.sh + fin.sh)⟩

/-- Fold the compression function over the 64-byte chunks of a padded message. -/
def sha256Chunks (st : Sha256State) (bytes : List Nat) : Sha256State :=
  match bytes with
  | [] => st
  | b :: rest =>
      sha256Chunks (sha256Compress st (bytesToWords ((b :: rest).take 64)))
        ((b :: rest).drop 64)
termination_by bytes.length
decreasing_by simp; omega

/-- The eight 32-bit words of the SHA-256 digest of a byte message. -/
def sha256Words (msg : List Nat) : List Nat :=
  let st := sha256Chunks sha256Init (sha256Pad msg)
  [w32 st.sa, w32 st.sb, w32 st.sc, w32 st.sd, w32 st.se, w32 st.sf,
   w32 st.sg, w32 st.sh]

/-- Lowercase hex digit for a value below 16. -/
def hexDigit (n : Nat) : Char :=
  if n < 10 then Char.ofNat (48 + n) else Char.ofNat (87 + n)

/-- Eight-hex-digit rendering of a 32-bit word, most significant digit first. -/
def wordHex (w : Nat) : String :=
  String.mk ((List.range 8).map (fun i => hexDigit (w / 16 ^ (7 - i) % 16)))

/-- Hex-encoded SHA-256 digest of a byte message (`digest('hex')`). -/
def sha256HexBytes (msg : List Nat) : String :=
  String.join ((sha256Words msg).map wordHex)

/-- `computeRowHash(row, columns)`: SHA-256 (hex) of the UTF-8 bytes of the
canonical sorted `"key:value"` representation of the row over `columns`. -/
def computeRowHash (row : Row) (columns : List String) : String :=
  sha256HexBytes (strUtf8 (normalizedString row columns))

/-! ### Hash determinism and distinctness -/

/-- Membership in the sorted key list is membership in the column list. -/
theorem mem_sortedKeys {k : String} {columns : List String} :
    k ∈ sortedKeys columns ↔ k ∈ columns := by
  unfold sortedKeys
  rw [(List.perm_insertionSort _ _).mem_iff, List.mem_dedup]

/-- C2: two rows assigning identical values to every listed column hash
identically. Rows are embedded as maps, so the order in which a JS object's
properties were inserted is not observable at all; agreement on the listed
columns is the full hypothesis. -/
theorem C2_hash_deterministic (columns : List String) (r1 r2 : Row)
    (h : ∀ c ∈ columns, r1 c = r2 c) :
    computeRowHash r1 columns = computeRowHash r2 columns := by
  unfold computeRowHash normalizedString
  have hmap : (sortedKeys columns).map (fun key => key ++ ":" ++ normVal (r1 key)) =
      (sortedKeys columns).map (fun key => key ++ ":" ++ normVal (r2 key)) := by
    apply List.map_congr_left
    intro k hk
    rw [h k (mem_sortedKeys.mp hk)]
  rw [hmap]

/-- Concrete instantiation of `C2_hash_deterministic`: two rows built in
different ways (one total, one mapping unlisted columns to `none`) agree on the
single listed column and therefore hash identically. -/
theorem C2_hash_deterministic_witness :
    computeRowHash (fun _ => some "v") ["a"] =
      computeRowHash (fun c => if c = "a" then some "v" else none) ["a"] := by
  apply C2_hash_deterministic
  intro c hc
  simp only [List.mem_singleton] at hc
  simp [hc]

/-- Splitting an equation between two strings of the shape
`prefix ++ '|' ++ suffix` when neither prefix contains the separator. -/
theorem pipe_split {l1 l2 m1 m2 : List Char}
    (h1 : ('|' : Char) ∉ l1) (h2 : ('|' : Char) ∉ l2)
    (heq : l1 ++ '|' :: m1 = l2 ++ '|' :: m2) : l1 = l2 ∧ m1 = m2 := by
  induction l1 generalizing l2 with
  | nil =>
    cases l2 with
    | nil => simpa using heq
    | cons b t2 =>
      simp only [List.nil_append, List.cons_append, List.cons.injEq] at heq
      exact absurd (heq.1 ▸ List.mem_cons_self b t2) h2
  | cons a t1 ih =>
    cases l2 with
    | nil =>
      simp only [List.nil_append, List.cons_append, List.cons.injEq] at heq
      exact absurd (heq.1.symm ▸ List.mem_cons_self a t1) h1
    | cons b t2 =>
      simp only [List.cons_append, List.cons.injEq] at heq
      have ht := ih (fun hm => h1 (List.mem_cons_of_mem a hm))
        (fun hm => h2 (List.mem_cons_of_mem b hm)) heq.2
      exact ⟨by rw [heq.1, ht.1], ht.2⟩

/-- Joined canonical segments over the same key list distinguish any two value
assignments that differ at some key, provided no value contains the `'|'`
separator. -/
theorem joinPipe_map_ne (f g : String → String) :
    ∀ (ks : List String) (c : String), c ∈ ks → f c ≠ g c →
    (∀ k ∈ ks, ('|' : Char) ∉ (f k).data) →
    (∀ k ∈ ks, ('|' : Char) ∉ (g k).data) →
    joinPipe (ks.map (fun k => k ++ ":" ++ f k)) ≠
      joinPipe (ks.map (fun k => k ++ ":" ++ g k)) := by
  intro ks
  induction ks with
  | nil => intro c hc; exact absurd hc (List.not_mem_nil c)
  | cons k rest ih =>
    intro c hc hne hf hg heq
    cases rest with
    | nil =>
      have hck : c = k := by simpa using hc
      subst hck
      simp only [List.map_cons, List.map_nil, joinPipe] at heq
      have hdata := congrArg String.data heq
      simp only [String.data_append] at hdata
      have := List.append_cancel_left hdata
      exact hne (String.ext this)
    | cons k2 rest2 =>
      simp only [List.map_cons, joinPipe] at heq
      have hdata := congrArg String.data heq
      simp only [String.data_append, List.append_assoc] at hdata
      have hdata2 := List.append_cancel_left hdata
      have hdata3 := List.append_cancel_left hdata2
      -- now of the form (f k).data ++ '|' :: J1 = (g k).data ++ '|' :: J2
      have hsplit := pipe_split (hf k (List.mem_cons_self k _))
        (hg k (List.mem_cons_self k _)) (by simpa using hdata3)
      rcases List.mem_cons.mp hc with hck | hcrest
      · exact hne (hck ▸ String.ext hsplit.1)
      · exact ih c hcrest hne
          (fun j hj => hf j (List.mem_cons_of_mem k hj))
          (fun j hj => hg j (List.mem_cons_of_mem k hj))
          (String.ext hsplit.2)

/-- The digest words combined into a single 256-bit value. -/
def wordsToNat (ws : List Nat) : Nat :=
  ws.foldl (fun acc w => acc * 4294967296 + w) 0

/-- The SHA-256 digest of a byte message read as one 256-bit number. -/
def sha256Num (msg : List Nat) : Nat := wordsToNat (sha256Words msg)

/-- The numeric digest is below `2 ^ 256`: SHA-256 has a finite range. -/
theorem sha256Num_lt (msg : List Nat) : sha256Num msg < 2 ^ 256 := by
  unfold sha256Num sha256Words wordsToNat w32
  simp only [List.foldl]
  have hp : 0 < 4294967296 := by norm_num
  have h1 := Nat.mod_lt (sha256Chunks sha256Init (sha256Pad msg)).sa hp
  have h2 := Nat.mod_lt (sha256Chunks sha256Init (sha256Pad msg)).sb hp
  have h3 := Nat.mod_lt (sha256Chunks sha256Init (sha256Pad msg)).sc hp
  have h4 := Nat.mod_lt (sha256Chunks sha256Init (sha256Pad msg)).sd hp
  have h5 := Nat.mod_lt (sha256Chunks sha256Init (sha256Pad msg)).se hp
  have h6 := Nat.mod_lt (sha256Chunks sha256Init (sha256Pad msg)).sf hp
  have h7 := Nat.mod_lt (sha256Chunks sha256Init (sha256Pad msg)).sg hp
  have h8 := Nat.mod_lt (sha256Chunks sha256Init (sha256Pad msg)).sh hp
  have hpow : (2 : Nat) ^ 256 =
      115792089237316195423570985008687907853269984665640564039457584007913129639936 := by
    norm_num
  rw [hpow]
  omega

/-- Equal numeric digests give equal hex digests: the hex rendering is a
function of the eight digest words, which the 256-bit value determines. -/
theorem sha256HexBytes_eq_of_num (m1 m2 : List Nat)
    (h : sha256Num m1 = sha256Num m2) : sha256HexBytes m1 = sha256HexBytes m2 := by
  unfold sha256Num sha256Words wordsToNat w32 at h
  simp only [List.foldl] at h
  show String.join (List.map wordHex
      [(sha256Chunks sha256Init (sha256Pad m1)).sa % 4294967296,
       (sha256Chunks sha256Init (sha256Pad m1)).sb % 4294967296,
       (sha256Chunks sha256Init (sha256Pad m1)).sc % 4294967296,
       (sha256Chunks sha256Init (sha256Pad m1)).sd % 4294967296,
       (sha256Chunks sha256Init (sha256Pad m1)).se % 4294967296,
       (sha256Chunks sha256Init (sha256Pad m1)).sf % 4294967296,
       (sha256Chunks sha256Init (sha256Pad m1)).sg % 4294967296,
       (sha256Chunks sha256Init (sha256Pad m1)).sh % 4294967296]) =
    String.join (List.map wordHex
      [(sha256Chunks sha256Init (sha256Pad m2)).sa % 4294967296,
       (sha256Chunks sha256Init (sha256Pad m2)).sb % 4294967296,
       (sha256Chunks sha256Init (sha256Pad m2)).sc % 4294967296,
       (sha256Chunks sha256Init (sha256Pad m2)).sd % 4294967296,
       (sha256Chunks sha256Init (sha256Pad m2)).se % 4294967296,
       (sha256Chunks sha256Init (sha256Pad m2)).sf % 4294967296,
       (sha256Chunks sha256Init (sha256Pad m2)).sg % 4294967296,
       (sha256Chunks sha256Init (sha256Pad m2)).sh % 4294967296])
  have hp : 0 < 4294967296 := by norm_num
  have h1 := Nat.mod_lt (sha256Chunks sha256Init (sha256Pad m1)).sa hp
  have h2 := Nat.mod_lt (sha256Chunks sha256Init (sha256Pad m1)).sb hp
  have h3 := Nat.mod_lt (sha256Chunks sha256Init (sha256Pad m1)).sc hp
  have h4 := Nat.mod_lt (sha256Chunks sha256Init (sha256Pad m1)).sd hp
  have h5 := Nat.mod_lt (sha256Chunks sha256Init (sha256Pad m1)).se hp
  have h6 := Nat.mod_lt (sha256Chunks sha256Init (sha256Pad m1)).sf hp
  have h7 := Nat.mod_lt (sha256Chunks sha256Init (sha256Pad m1)).sg hp
  have h8 := Nat.mod_lt (sha256Chunks sha256Init (sha256Pad m1)).sh hp
  have g1 := Nat.mod_lt (sha256Chunks sha256Init (sha256Pad m2)).sa hp
  have g2 := Nat.mod_lt (sha256Chunks sha256Init (sha256Pad m2)).sb hp
  have g3 := Nat.mod_lt (sha256Chunks sha256Init (sha256Pad m2)).sc hp
  have g4 := Nat.mod_lt (sha256Chunks sha256Init (sha256Pad m2)).sd hp
  have g5 := Nat.mod_lt (sha256Chunks sha256Init (sha256Pad m2)).se hp
  have g6 := Nat.mod_lt (sha256Chunks sha256Init (sha256Pad m2)).sf hp
  have g7 := Nat.mod_lt (sha256Chunks sha256Init (sha256Pad m2)).sg hp
  have g8 := Nat.mod_lt (sha256Chunks sha256Init (sha256Pad m2)).sh hp
  have e1 : (sha256Chunks sha256Init (sha256Pad m1)).sa % 4294967296 =
      (sha256Chunks sha256Init (sha256Pad m2)).sa % 4294967296 := by omega
  have e2 : (sha256Chunks sha256Init (sha256Pad m1)).sb % 4294967296 =
      (sha256Chunks sha256Init (sha256Pad m2)).sb % 4294967296 := by omega
  have e3 : (sha256Chunks sha256Init (sha256Pad m1)).sc % 4294967296 =
      (sha256Chunks sha256Init (sha256Pad m2)).sc % 4294967296 := by omega
  have e4 : (sha256Chunks sha256Init (sha256Pad m1)).sd % 4294967296 =
      (sha256Chunks sha256Init (sha256Pad m2)).sd % 4294967296 := by omega
  have e5 : (sha256Chunks sha256Init (sha256Pad m1)).se % 4294967296 =
      (sha256Chunks sha256Init (sha256Pad m2)).se % 4294967296 := by omega
  have e6 : (sha256Chunks sha256Init (sha256Pad m1)).sf % 4294967296 =
      (sha256Chunks sha256Init (sha256Pad m2)).sf % 4294967296 := by omega
  have e7 : (sha256Chunks sha256Init (sha256Pad m1)).sg % 4294967296 =
      (sha256Chunks sha256Init (sha256Pad m2)).sg % 4294967296 := by omega
  have e8 : (sha256Chunks sha256Init (sha256Pad m1)).sh % 4294967296 =
      (sha256Chunks sha256Init (sha256Pad m2)).sh % 4294967296 := by omega
  rw [e1, e2, e3, e4, e5, e6, e7, e8]

/-- A family of single-column rows whose `"a"` values are the strings
`"x" ^ v`; distinct indices give distinct normalized values. -/
def xRow (v : Nat) : Row :=
  fun c => if c = "a" then some (String.mk (List.replicate v 'x')) else none

/-- The values of the `xRow` family never contain the `'|'` separator. -/
theorem xRow_sep (v : Nat) : ('|' : Char) ∉ (normVal (xRow v "a")).data := by
  simp only [xRow, normVal, if_pos rfl, Option.getD_some]
  intro hmem
  exact absurd (List.eq_of_mem_replicate hmem) (by decide)

/-- C3 fails as stated: `computeRowHash` applies SHA-256, whose range is
finite, so among the infinitely many single-column rows `xRow v` — which
pairwise differ in the listed column's normalized value and contain no `'|'`
separator — two distinct ones collide on the full digest. Distinctness of the
digests can therefore not hold for every pair of differing rows. -/
theorem C3_counterexample : ∃ r1 r2 : Row,
    normVal (r1 "a") ≠ normVal (r2 "a") ∧
    (∀ k ∈ ["a"], ('|' : Char) ∉ (normVal (r1 k)).data ∧
      ('|' : Char) ∉ (normVal (r2 k)).data) ∧
    computeRowHash r1 ["a"] = computeRowHash r2 ["a"] := by
  obtain ⟨v1, v2, hne, heq⟩ := Finite.exists_ne_map_eq_of_infinite
    (fun v : Nat =>
      (⟨sha256Num (strUtf8 (normalizedString (xRow v) ["a"])) % 2 ^ 256,
        Nat.mod_lt _ (by positivity)⟩ : Fin (2 ^ 256)))
  refine ⟨xRow v1, xRow v2, ?_, ?_, ?_⟩
  · simp only [xRow, normVal, if_pos rfl, Option.getD_some]
    intro hcontra
    have := congrArg (fun s => s.data.length) hcontra
    simp at this
    exact hne this
  · intro k hk
    have hk1 : k = "a" := by simpa using hk
    subst hk1
    exact ⟨xRow_sep v1, xRow_sep v2⟩
  · have hv := congrArg Fin.val heq
    simp only at hv
    have l1 := sha256Num_lt (strUtf8 (normalizedString (xRow v1) ["a"]))
    have l2 := sha256Num_lt (strUtf8 (normalizedString (xRow v2) ["a"]))
    rw [Nat.mod_eq_of_lt l1, Nat.mod_eq_of_lt l2] at hv
    exact sha256HexBytes_eq_of_num _ _ hv

/-- C3 amended: what the canonical construction does guarantee. If two rows
differ in the normalized value of some listed column and no listed value
contains the `'|'` separator (the spec's "separator not expected in values"),
then their canonical pre-hash strings differ — the digests then differ unless
SHA-256 itself collides on the two canonical strings. -/
theorem C3_canonical_injective (columns : List String) (r1 r2 : Row) (c : String)
    (hc : c ∈ columns) (hv : normVal (r1 c) ≠ normVal (r2 c))
    (h1 : ∀ k ∈ columns, ('|' : Char) ∉ (normVal (r1 k)).data)
    (h2 : ∀ k ∈ columns, ('|' : Char) ∉ (normVal (r2 k)).data) :
    normalizedString r1 columns ≠ normalizedString r2 columns := by
  unfold normalizedString
  exact joinPipe_map_ne (fun k => normVal (r1 k)) (fun k => normVal (r2 k))
    (sortedKeys columns) c (mem_sortedKeys.mpr hc) hv
    (fun k hk => h1 k (mem_sortedKeys.mp hk))
    (fun k hk => h2 k (mem_sortedKeys.mp hk))

/-- Concrete instantiation of `C3_canonical_injective`: rows with values `"x"`
and `"y"` in the single listed column produce distinct canonical strings. -/
theorem C3_canonical_injective_witness :
    normalizedString (fun _ => some "x") ["a"] ≠
      normalizedString (fun _ => some "y") ["a"] :=
  C3_canonical_injective ["a"] (fun _ => some "x") (fun _ => some "y") "a"
    (by decide) (by decide) (by decide) (by decide)

/-! ## Diff engine (`computeRowId`, `computeDiff`)

`computeDiff` aligns sheet rows and snapshot rows positionally. The JS `Map`s
keyed by index are dense (`forEach` visits every index), so
`sheetRowsByIndex.get(i)` is embedded as `sheetRows.get? i` together with the
derived hash/rowId fields computed on the fly.
-/

/-- JS `String.prototype.toLowerCase` (ASCII-relevant part). -/
def lowerStr (s : String) : String := String.mk (s.data.map Char.toLower)

/-- JS `String.prototype.includes`: substring containment. -/
def strIncludes (s pat : String) : Bool :=
  s.data.tails.any (fun t => pat.data.isPrefixOf t)

/-- The natural-id column name patterns tried by `computeRowId`. -/
def idPatterns : List String := ["id", "uuid", "_id", "row_id", "key", "primary_key"]

/-- `columns.find(col => col.toLowerCase().includes(pattern.toLowerCase()))`. -/
def findIdCol (columns : List String) (pattern : String) : Option String :=
  columns.find? (fun col => strIncludes (lowerStr col) (lowerStr pattern))

/-- Helper loop of `computeRowId` over the id patterns: the first pattern with
a matching column holding a truthy value wins; otherwise fall back to the row
hash. -/
def rowIdLoop (row : Row) (columns : List String) : List String → String
  | [] => computeRowHash row columns
  | p :: rest =>
      match findIdCol columns p with
      | some idCol =>
          match row idCol with
          | some v => if v = "" then rowIdLoop row columns rest else v
          | none => rowIdLoop row columns rest
      | none => rowIdLoop row columns rest

/-- `computeRowId(row, columns, rowIndex)`: a natural id column's value when
one exists and is truthy, else the content hash (`rowIndex` is accepted but
unused, as in the source). -/
def computeRowId (row : Row) (columns : List String) (_rowIndex : Nat) : String :=
  rowIdLoop row columns idPatterns

/-- A snapshot row as handed to `computeDiff`: its user-column values plus the
stored metadata fields consulted by the diff (`row_hash`, `row_id`, `id`). -/
structure DbRow where
  data : Row
  row_hash : Option String
  row_id : Option String
  id : Option Nat

/-- `dbRow.row_hash || computeRowHash(dbRow, columns)` (empty string and
absent/null are both falsy). -/
def dbRowHash (d : DbRow) (columns : List String) : String :=
  match d.row_hash with
  | some h => if h = "" then computeRowHash d.data columns else h
  | none => computeRowHash d.data columns

/-- `dbRow.row_id || computeRowId(dbRow, columns, dbRow.id || 0)`. -/
def dbRowId (d : DbRow) (columns : List String) : String :=
  match d.row_id with
  | some ri => if ri = "" then computeRowId d.data columns (d.id.getD 0) else ri
  | none => computeRowId d.data columns (d.id.getD 0)

/-- An element of `diff.inserts`. -/
structure InsertItem where
  row : Row
  hash : String
  rowId : String
  index : Nat

/-- An element of `diff.updates`. -/
structure UpdateItem where
  row : Row
  hash : String
  rowId : String
  dbRow : DbRow
  dbHash : String
  dbId : Option Nat
  index : Nat

/-- An element of `diff.deletes`. -/
structure DeleteItem where
  row : DbRow
  hash : String
  rowId : String
  dbId : Option Nat
  index : Nat

/-- The value of `computeDiff`: the three ordered item lists and the
`unchanged` count (`sheetRows.length - inserts.length - updates.length`, a JS
number, hence an integer). -/
structure DiffResult where
  inserts : List InsertItem
  updates : List UpdateItem
  deletes : List DeleteItem
  unchanged : Int

/-- How the loop body of `computeDiff` treats one position. -/
inductive RowCase where
  | ins (item : InsertItem)
  | upd (item : UpdateItem)
  | del (item : DeleteItem)
  | unch
  | outOfRange

/-- The loop body of `computeDiff` at one index: present only in the sheet is
an insert, present only in the snapshot a delete, present in both an update
precisely when the hashes differ, else unchanged. -/
def classifyIndex (sheetRows : List Row) (dbRows : List DbRow)
    (columns : List String) (index : Nat) : RowCase :=
  match sheetRows.get? index, dbRows.get? index with
  | some r, none =>
      RowCase.ins ⟨r, computeRowHash r columns, computeRowId r columns index, index⟩
  | none, some d =>
      RowCase.del ⟨d, dbRowHash d columns, dbRowId d columns, d.id, index⟩
  | some r, some d =>
      if computeRowHash r columns ≠ dbRowHash d columns then
        RowCase.upd ⟨r, computeRowHash r columns, computeRowId r columns index,
          d, dbRowHash d columns, d.id, index⟩
      else RowCase.unch
  | none, none => RowCase.outOfRange

/-- `computeDiff(sheetRows, dbRows, columns)`: one pass over positions `0` to
`max(len(sheet), len(db)) - 1`, pushing each classified item on the list of
its kind in index order. -/
def computeDiff (sheetRows : List Row) (dbRows : List DbRow)
    (columns : List String) : DiffResult :=
  let maxIndex := max sheetRows.length dbRows.length
  let idxs := List.range maxIndex
  let inserts := idxs.filterMap (fun i =>
    match classifyIndex sheetRows dbRows columns i with
    | RowCase.ins it => some it
    | _ => none)
  let updates := idxs.filterMap (fun i =>
    match classifyIndex sheetRows dbRows columns i with
    | RowCase.upd it => some it
    | _ => none)
  let deletes := idxs.filterMap (fun i =>
    match classifyIndex sheetRows dbRows columns i with
    | RowCase.del it => some it
    | _ => none)
  ⟨inserts, updates, deletes,
    (sheetRows.length : Int) - inserts.length - updates.length⟩

/-! ### Diff completeness -/

/-- Whether a classified position is an insert. -/
def RowCase.isIns : RowCase → Bool
  | RowCase.ins _ => true
  | _ => false

/-- Whether a classified position is an update. -/
def RowCase.isUpd : RowCase → Bool
  | RowCase.upd _ => true
  | _ => false

/-- Whether a classified position is a delete. -/
def RowCase.isDel : RowCase → Bool
  | RowCase.del _ => true
  | _ => false

/-- Whether a classified position is unchanged. -/
def RowCase.isUnch : RowCase → Bool
  | RowCase.unch => true
  | _ => false

/-- A position is unchanged when it is present in both lists with equal
hashes: that is the loop case that pushes on no list. -/
def unchangedAt (sheetRows : List Row) (dbRows : List DbRow)
    (columns : List String) (i : Nat) : Prop :=
  ∃ r dr, sheetRows.get? i = some r ∧ dbRows.get? i = some dr ∧
    computeRowHash r columns = dbRowHash dr columns

/-- Exactly one of four alternatives holds. -/
def exactlyOne4 (p1 p2 p3 p4 : Prop) : Prop :=
  (p1 ∧ ¬p2 ∧ ¬p3 ∧ ¬p4) ∨ (¬p1 ∧ p2 ∧ ¬p3 ∧ ¬p4) ∨
  (¬p1 ∧ ¬p2 ∧ p3 ∧ ¬p4) ∨ (¬p1 ∧ ¬p2 ∧ ¬p3 ∧ p4)

/-- Mapping a projection over a `filterMap` collapses to a `filter` when the
projection recovers the scanned element and presence agrees with the filter
predicate. -/
theorem map_filterMap_eq_filter {α β : Type} (f : α → Option β) (g : β → α)
    (p : α → Bool) (l : List α)
    (h1 : ∀ a ∈ l, ∀ b, f a = some b → g b = a)
    (h2 : ∀ a ∈ l, (f a).isSome = p a) :
    (l.filterMap f).map g = l.filter p := by
  induction l with
  | nil => simp
  | cons a t ih =>
    have iht := ih (fun x hx b hb => h1 x (List.mem_cons_of_mem a hx) b hb)
      (fun x hx => h2 x (List.mem_cons_of_mem a hx))
    cases hfa : f a with
    | none =>
      have hp : p a = false := by
        have := h2 a (List.mem_cons_self a t)
        rw [hfa] at this
        simpa using this.symm
      simp [List.filterMap_cons, hfa, List.filter_cons, hp, iht]
    | some b =>
      have hp : p a = true := by
        have := h2 a (List.mem_cons_self a t)
        rw [hfa] at this
        simpa using this.symm
      have hg : g b = a := h1 a (List.mem_cons_self a t) b hfa
      simp [List.filterMap_cons, hfa, List.filter_cons, hp, iht, hg]

/-- Reduction of the classification when the position is only in the sheet. -/
theorem classifyIndex_sheet_only {sheetRows : List Row} {dbRows : List DbRow}
    {columns : List String} {i : Nat} {r : Row}
    (hs : sheetRows.get? i = some r) (hd : dbRows.get? i = none) :
    classifyIndex sheetRows dbRows columns i =
      RowCase.ins ⟨r, computeRowHash r columns, computeRowId r columns i, i⟩ := by
  unfold classifyIndex
  rw [hs, hd]

/-- Reduction of the classification when the position is only in the snapshot. -/
theorem classifyIndex_db_only {sheetRows : List Row} {dbRows : List DbRow}
    {columns : List String} {i : Nat} {dr : DbRow}
    (hs : sheetRows.get? i = none) (hd : dbRows.get? i = some dr) :
    classifyIndex sheetRows dbRows columns i =
      RowCase.del ⟨dr, dbRowHash dr columns, dbRowId dr columns, dr.id, i⟩ := by
  unfold classifyIndex
  rw [hs, hd]

/-- Reduction of the classification when the position is in both lists. -/
theorem classifyIndex_both {sheetRows : List Row} {dbRows : List DbRow}
    {columns : List String} {i : Nat} {r : Row} {dr : DbRow}
    (hs : sheetRows.get? i = some r) (hd : dbRows.get? i = some dr) :
    classifyIndex sheetRows dbRows columns i =
      if computeRowHash r columns ≠ dbRowHash dr columns then
        RowCase.upd ⟨r, computeRowHash r columns, computeRowId r columns i,
          dr, dbRowHash dr columns, dr.id, i⟩
      else RowCase.unch := by
  unfold classifyIndex
  rw [hs, hd]

/-- Reduction of the classification beyond both lists. -/
theorem classifyIndex_neither {sheetRows : List Row} {dbRows : List DbRow}
    {columns : List String} {i : Nat}
    (hs : sheetRows.get? i = none) (hd : dbRows.get? i = none) :
    classifyIndex sheetRows dbRows columns i = RowCase.outOfRange := by
  unfold classifyIndex
  rw [hs, hd]

/-- An index below one of the two lengths is classified (not out of range). -/
theorem classify_not_oor {sheetRows : List Row} {dbRows : List DbRow}
    {columns : List String} {i : Nat}
    (h : i < max sheetRows.length dbRows.length) :
    classifyIndex sheetRows dbRows columns i ≠ RowCase.outOfRange := by
  rcases hs : sheetRows.get? i with _ | r <;> rcases hd : dbRows.get? i with _ | dr
  · rw [List.get?_eq_none] at hs hd
    omega
  · rw [classifyIndex_db_only hs hd]
    simp
  · rw [classifyIndex_sheet_only hs hd]
    simp
  · rw [classifyIndex_both hs hd]
    split <;> simp

/-- Selecting the insert branch of the classification succeeds exactly when
the position classifies as an insert. -/
theorem classify_ins_of_some {sheetRows : List Row} {dbRows : List DbRow}
    {columns : List String} {a : Nat} {b : InsertItem}
    (h : (match classifyIndex sheetRows dbRows columns a with
      | RowCase.ins it => some it
      | _ => none) = some b) :
    classifyIndex sheetRows dbRows columns a = RowCase.ins b := by
  cases hca : classifyIndex sheetRows dbRows columns a <;> rw [hca] at h <;>
    simp at h
  rw [h]

/-- Same selection fact for the update branch. -/
theorem classify_upd_of_some {sheetRows : List Row} {dbRows : List DbRow}
    {columns : List String} {a : Nat} {b : UpdateItem}
    (h : (match classifyIndex sheetRows dbRows columns a with
      | RowCase.upd it => some it
      | _ => none) = some b) :
    classifyIndex sheetRows dbRows columns a = RowCase.upd b := by
  cases hca : classifyIndex sheetRows dbRows columns a <;> rw [hca] at h <;>
    simp at h
  rw [h]

/-- Same selection fact for the delete branch. -/
theorem classify_del_of_some {sheetRows : List Row} {dbRows : List DbRow}
    {columns : List String} {a : Nat} {b : DeleteItem}
    (h : (match classifyIndex sheetRows dbRows columns a with
      | RowCase.del it => some it
      | _ => none) = some b) :
    classifyIndex sheetRows dbRows columns a = RowCase.del b := by
  cases hca : classifyIndex sheetRows dbRows columns a <;> rw [hca] at h <;>
    simp at h
  rw [h]

/-- An insert item records the position it was produced at. -/
theorem classify_ins_index {sheetRows : List Row} {dbRows : List DbRow}
    {columns : List String} {i : Nat} {it : InsertItem}
    (h : classifyIndex sheetRows dbRows columns i = RowCase.ins it) :
    it.index = i := by
  rcases hs : sheetRows.get? i with _ | r <;> rcases hd : dbRows.get? i with _ | dr
  · rw [classifyIndex_neither hs hd] at h
    simp at h
  · rw [classifyIndex_db_only hs hd] at h
    simp at h
  · rw [classifyIndex_sheet_only hs hd] at h
    simp at h
    rw [← h]
  · rw [classifyIndex_both hs hd] at h
    split at h <;> simp at h

/-- An update item records the position it was produced at. -/
theorem classify_upd_index {sheetRows : List Row} {dbRows : List DbRow}
    {columns : List String} {i : Nat} {it : UpdateItem}
    (h : classifyIndex sheetRows dbRows columns i = RowCase.upd it) :
    it.index = i := by
  rcases hs : sheetRows.get? i with _ | r <;> rcases hd : dbRows.get? i with _ | dr
  · rw [classifyIndex_neither hs hd] at h
    simp at h
  · rw [classifyIndex_db_only hs hd] at h
    simp at h
  · rw [classifyIndex_sheet_only hs hd] at h
    simp at h
  · rw [classifyIndex_both hs hd] at h
    split at h <;> simp at h
    rw [← h]

/-- A delete item records the position it was produced at. -/
theorem classify_del_index {sheetRows : List Row} {dbRows : List DbRow}
    {columns : List String} {i : Nat} {it : DeleteItem}
    (h : classifyIndex sheetRows dbRows columns i = RowCase.del it) :
    it.index = i := by
  rcases hs : sheetRows.get? i with _ | r <;> rcases hd : dbRows.get? i with _ | dr
  · rw [classifyIndex_neither hs hd] at h
    simp at h
  · rw [classifyIndex_db_only hs hd] at h
    simp at h
    rw [← h]
  · rw [classifyIndex_sheet_only hs hd] at h
    simp at h
  · rw [classifyIndex_both hs hd] at h
    split at h <;> simp at h

/-- A successful positional lookup implies the index is in range. -/
theorem get?_some_lt {α : Type} {l : List α} {i : Nat} {x : α}
    (h : l.get? i = some x) : i < l.length := by
  by_contra hge
  rw [List.get?_eq_none.mpr (by omega)] at h
  exact Option.noConfusion h

/-- The contribution of an insert-classified position to each of the four
counts. -/
theorem counts_of_ins {sheetRows : List Row} {dbRows : List DbRow}
    {columns : List String} {a : Nat} {it : InsertItem}
    (hca : classifyIndex sheetRows dbRows columns a = RowCase.ins it) :
    (if (classifyIndex sheetRows dbRows columns a).isIns = true then (1:Nat) else 0) = 1 ∧
    (if (classifyIndex sheetRows dbRows columns a).isUpd = true then (1:Nat) else 0) = 0 ∧
    (if (classifyIndex sheetRows dbRows columns a).isDel = true then (1:Nat) else 0) = 0 ∧
    (if (classifyIndex sheetRows dbRows columns a).isUnch = true then (1:Nat) else 0) = 0 := by
  rw [hca]
  exact ⟨rfl, rfl, rfl, rfl⟩

/-- The contribution of an update-classified position to each of the four
counts. -/
theorem counts_of_upd {sheetRows : List Row} {dbRows : List DbRow}
    {columns : List String} {a : Nat} {it : UpdateItem}
    (hca : classifyIndex sheetRows dbRows columns a = RowCase.upd it) :
    (if (classifyIndex sheetRows dbRows columns a).isIns = true then (1:Nat) else 0) = 0 ∧
    (if (classifyIndex sheetRows dbRows columns a).isUpd = true then (1:Nat) else 0) = 1 ∧
    (if (classifyIndex sheetRows dbRows columns a).isDel = true then (1:Nat) else 0) = 0 ∧
    (if (classifyIndex sheetRows dbRows columns a).isUnch = true then (1:Nat) else 0) = 0 := by
  rw [hca]
  exact ⟨rfl, rfl, rfl, rfl⟩

/-- The contribution of a delete-classified position to each of the four
counts. -/
theorem counts_of_del {sheetRows : List Row} {dbRows : List DbRow}
    {columns : List String} {a : Nat} {it : DeleteItem}
    (hca : classifyIndex sheetRows dbRows columns a = RowCase.del it) :
    (if (classifyIndex sheetRows dbRows columns a).isIns = true then (1:Nat) else 0) = 0 ∧
    (if (classifyIndex sheetRows dbRows columns a).isUpd = true then (1:Nat) else 0) = 0 ∧
    (if (classifyIndex sheetRows dbRows columns a).isDel = true then (1:Nat) else 0) = 1 ∧
    (if (classifyIndex sheetRows dbRows columns a).isUnch = true then (1:Nat) else 0) = 0 := by
  rw [hca]
  exact ⟨rfl, rfl, rfl, rfl⟩

/-- The contribution of an unchanged position to each of the four counts. -/
theorem counts_of_unch {sheetRows : List Row} {dbRows : List DbRow}
    {columns : List String} {a : Nat}
    (hca : classifyIndex sheetRows dbRows columns a = RowCase.unch) :
    (if (classifyIndex sheetRows dbRows columns a).isIns = true then (1:Nat) else 0) = 0 ∧
    (if (classifyIndex sheetRows dbRows columns a).isUpd = true then (1:Nat) else 0) = 0 ∧
    (if (classifyIndex sheetRows dbRows columns a).isDel = true then (1:Nat) else 0) = 0 ∧
    (if (classifyIndex sheetRows dbRows columns a).isUnch = true then (1:Nat) else 0) = 1 := by
  rw [hca]
  exact ⟨rfl, rfl, rfl, rfl⟩

/-- The contribution of an out-of-range position to each of the four counts. -/
theorem counts_of_oor {sheetRows : List Row} {dbRows : List DbRow}
    {columns : List String} {a : Nat}
    (hca : classifyIndex sheetRows dbRows columns a = RowCase.outOfRange) :
    (if (classifyIndex sheetRows dbRows columns a).isIns = true then (1:Nat) else 0) = 0 ∧
    (if (classifyIndex sheetRows dbRows columns a).isUpd = true then (1:Nat) else 0) = 0 ∧
    (if (classifyIndex sheetRows dbRows columns a).isDel = true then (1:Nat) else 0) = 0 ∧
    (if (classifyIndex sheetRows dbRows columns a).isUnch = true then (1:Nat) else 0) = 0 := by
  rw [hca]
  exact ⟨rfl, rfl, rfl, rfl⟩

/-- The four classification outcomes of in-range positions partition any index
list: their counts sum to the list length. -/
theorem countP_partition (sheetRows : List Row) (dbRows : List DbRow)
    (columns : List String) (l : List Nat)
    (h : ∀ i ∈ l, classifyIndex sheetRows dbRows columns i ≠ RowCase.outOfRange) :
    l.countP (fun i => (classifyIndex sheetRows dbRows columns i).isIns) +
    l.countP (fun i => (classifyIndex sheetRows dbRows columns i).isUpd) +
    l.countP (fun i => (classifyIndex sheetRows dbRows columns i).isDel) +
    l.countP (fun i => (classifyIndex sheetRows dbRows columns i).isUnch) =
    l.length := by
  induction l with
  | nil => simp
  | cons a t ih =>
    have iht := ih (fun i hi => h i (List.mem_cons_of_mem a hi))
    rw [List.countP_cons, List.countP_cons, List.countP_cons, List.countP_cons,
      List.length_cons]
    obtain ⟨rc, hrc⟩ : ∃ rc, classifyIndex sheetRows dbRows columns a = rc := ⟨_, rfl⟩
    cases rc with
    | ins it =>
      obtain ⟨f1, f2, f3, f4⟩ := counts_of_ins hrc
      rw [f1, f2, f3, f4]
      omega
    | upd it =>
      obtain ⟨f1, f2, f3, f4⟩ := counts_of_upd hrc
      rw [f1, f2, f3, f4]
      omega
    | del it =>
      obtain ⟨f1, f2, f3, f4⟩ := counts_of_del hrc
      rw [f1, f2, f3, f4]
      omega
    | unch =>
      obtain ⟨f1, f2, f3, f4⟩ := counts_of_unch hrc
      rw [f1, f2, f3, f4]
      omega
    | outOfRange => exact absurd hrc (h a (List.mem_cons_self a t))

/-- Inserts, updates and unchanged positions are exactly the positions where a
sheet row is present. -/
theorem countP_sheet_present (sheetRows : List Row) (dbRows : List DbRow)
    (columns : List String) (l : List Nat) :
    l.countP (fun i => (classifyIndex sheetRows dbRows columns i).isIns) +
    l.countP (fun i => (classifyIndex sheetRows dbRows columns i).isUpd) +
    l.countP (fun i => (classifyIndex sheetRows dbRows columns i).isUnch) =
    l.countP (fun i => decide (i < sheetRows.length)) := by
  induction l with
  | nil => simp
  | cons a t ih =>
    rw [List.countP_cons, List.countP_cons, List.countP_cons, List.countP_cons]
    have hstep : (if (classifyIndex sheetRows dbRows columns a).isIns = true then (1:Nat) else 0) +
        (if (classifyIndex sheetRows dbRows columns a).isUpd = true then (1:Nat) else 0) +
        (if (classifyIndex sheetRows dbRows columns a).isUnch = true then (1:Nat) else 0) =
        (if decide (a < sheetRows.length) = true then (1:Nat) else 0) := by
      rcases hs : sheetRows.get? a with _ | r <;> rcases hd : dbRows.get? a with _ | dr
      · have hge : ¬ a < sheetRows.length := by
          rw [List.get?_eq_none] at hs
          omega
        obtain ⟨f1, f2, _, f4⟩ := counts_of_oor (classifyIndex_neither hs hd)
        rw [f1, f2, f4]
        simp [hge]
      · have hge : ¬ a < sheetRows.length := by
          rw [List.get?_eq_none] at hs
          omega
        obtain ⟨f1, f2, _, f4⟩ := counts_of_del (classifyIndex_db_only hs hd)
        rw [f1, f2, f4]
        simp [hge]
      · have hlt : a < sheetRows.length := get?_some_lt hs
        obtain ⟨f1, f2, _, f4⟩ := counts_of_ins (classifyIndex_sheet_only hs hd)
        rw [f1, f2, f4]
        simp [hlt]
      · have hlt : a < sheetRows.length := get?_some_lt hs
        by_cases hh : computeRowHash r columns = dbRowHash dr columns
        · have hca : classifyIndex sheetRows dbRows columns a = RowCase.unch := by
            rw [classifyIndex_both hs hd]
            simp [hh]
          obtain ⟨f1, f2, _, f4⟩ := counts_of_unch hca
          rw [f1, f2, f4]
          simp [hlt]
        · have hca : classifyIndex sheetRows dbRows columns a =
              RowCase.upd ⟨r, computeRowHash r columns, computeRowId r columns a,
                dr, dbRowHash dr columns, dr.id, a⟩ := by
            rw [classifyIndex_both hs hd]
            simp [hh]
          obtain ⟨f1, f2, _, f4⟩ := counts_of_upd hca
          rw [f1, f2, f4]
          simp [hlt]
    omega

/-- Counting indices below a bound within `range n`. -/
theorem countP_range_lt (S n : Nat) :
    (List.range n).countP (fun i => decide (i < S)) = min S n := by
  induction n with
  | zero => simp
  | succ n ih =>
    rw [List.range_succ, List.countP_append, ih, List.countP_cons]
    by_cases hn : n < S <;> simp [hn] <;> omega

/-- The insert list of `computeDiff`, as the filtered classification. -/
theorem computeDiff_inserts (sheetRows : List Row) (dbRows : List DbRow)
    (columns : List String) :
    (computeDiff sheetRows dbRows columns).inserts =
      (List.range (max sheetRows.length dbRows.length)).filterMap (fun i =>
        match classifyIndex sheetRows dbRows columns i with
        | RowCase.ins it => some it
        | _ => none) := rfl

/-- The update list of `computeDiff`, as the filtered classification. -/
theorem computeDiff_updates (sheetRows : List Row) (dbRows : List DbRow)
    (columns : List String) :
    (computeDiff sheetRows dbRows columns).updates =
      (List.range (max sheetRows.length dbRows.length)).filterMap (fun i =>
        match classifyIndex sheetRows dbRows columns i with
        | RowCase.upd it => some it
        | _ => none) := rfl

/-- The delete list of `computeDiff`, as the filtered classification. -/
theorem computeDiff_deletes (sheetRows : List Row) (dbRows : List DbRow)
    (columns : List String) :
    (computeDiff sheetRows dbRows columns).deletes =
      (List.range (max sheetRows.length dbRows.length)).filterMap (fun i =>
        match classifyIndex sheetRows dbRows columns i with
        | RowCase.del it => some it
        | _ => none) := rfl

/-- The `unchanged` field of `computeDiff`. -/
theorem computeDiff_unchanged (sheetRows : List Row) (dbRows : List DbRow)
    (columns : List String) :
    (computeDiff sheetRows dbRows columns).unchanged =
      (sheetRows.length : Int) -
        (computeDiff sheetRows dbRows columns).inserts.length -
        (computeDiff sheetRows dbRows columns).updates.length := rfl

/-- Number of inserts as a classification count. -/
theorem computeDiff_inserts_length (sheetRows : List Row) (dbRows : List DbRow)
    (columns : List String) :
    (computeDiff sheetRows dbRows columns).inserts.length =
      (List.range (max sheetRows.length dbRows.length)).countP
        (fun i => (classifyIndex sheetRows dbRows columns i).isIns) := by
  rw [List.countP_eq_length_filter]
  rw [← map_filterMap_eq_filter _ (fun it => it.index) _ _
    (fun a _ b hb => classify_ins_index (classify_ins_of_some hb))
    (fun a _ => by
      obtain ⟨rc, hrc⟩ : ∃ rc, classifyIndex sheetRows dbRows columns a = rc := ⟨_, rfl⟩
      rw [hrc]
      cases rc <;> rfl)]
  rw [List.length_map, computeDiff_inserts]

/-- Number of updates as a classification count. -/
theorem computeDiff_updates_length (sheetRows : List Row) (dbRows : List DbRow)
    (columns : List String) :
    (computeDiff sheetRows dbRows columns).updates.length =
      (List.range (max sheetRows.length dbRows.length)).countP
        (fun i => (classifyIndex sheetRows dbRows columns i).isUpd) := by
  rw [List.countP_eq_length_filter]
  rw [← map_filterMap_eq_filter _ (fun it => it.index) _ _
    (fun a _ b hb => classify_upd_index (classify_upd_of_some hb))
    (fun a _ => by
      obtain ⟨rc, hrc⟩ : ∃ rc, classifyIndex sheetRows dbRows columns a = rc := ⟨_, rfl⟩
      rw [hrc]
      cases rc <;> rfl)]
  rw [List.length_map, computeDiff_updates]

/-- Number of deletes as a classification count. -/
theorem computeDiff_deletes_length (sheetRows : List Row) (dbRows : List DbRow)
    (columns : List String) :
    (computeDiff sheetRows dbRows columns).deletes.length =
      (List.range (max sheetRows.length dbRows.length)).countP
        (fun i => (classifyIndex sheetRows dbRows columns i).isDel) := by
  rw [List.countP_eq_length_filter]
  rw [← map_filterMap_eq_filter _ (fun it => it.index) _ _
    (fun a _ b hb => classify_del_index (classify_del_of_some hb))
    (fun a _ => by
      obtain ⟨rc, hrc⟩ : ∃ rc, classifyIndex sheetRows dbRows columns a = rc := ⟨_, rfl⟩
      rw [hrc]
      cases rc <;> rfl)]
  rw [List.length_map, computeDiff_deletes]

/-- A position is unchanged exactly when the loop classifies it as unchanged. -/
theorem unchangedAt_iff {sheetRows : List Row} {dbRows : List DbRow}
    {columns : List String} {i : Nat} :
    unchangedAt sheetRows dbRows columns i ↔
      (classifyIndex sheetRows dbRows columns i).isUnch = true := by
  unfold unchangedAt
  rcases hs : sheetRows.get? i with _ | r <;> rcases hd : dbRows.get? i with _ | dr
  · rw [classifyIndex_neither hs hd]
    constructor
    · rintro ⟨r, dr, hr, _, _⟩
      exact Option.noConfusion hr
    · intro hcontra
      exact Bool.noConfusion hcontra
  · rw [classifyIndex_db_only hs hd]
    constructor
    · rintro ⟨r, dr2, hr, _, _⟩
      exact Option.noConfusion hr
    · intro hcontra
      exact Bool.noConfusion hcontra
  · rw [classifyIndex_sheet_only hs hd]
    constructor
    · rintro ⟨r2, dr, _, hdd, _⟩
      exact Option.noConfusion hdd
    · intro hcontra
      exact Bool.noConfusion hcontra
  · rw [classifyIndex_both hs hd]
    by_cases hh : computeRowHash r columns = dbRowHash dr columns
    · rw [if_neg (fun hcon => hcon hh)]
      exact ⟨fun _ => rfl, fun _ => ⟨r, dr, rfl, rfl, hh⟩⟩
    · rw [if_pos hh]
      constructor
      · rintro ⟨r2, dr2, hr2, hd2, hh2⟩
        cases hr2
        cases hd2
        exact absurd hh2 hh
      · intro hcontra
        exact Bool.noConfusion hcontra

/-- Membership of a position in the insert list is classification as insert. -/
theorem mem_inserts_iff {sheetRows : List Row} {dbRows : List DbRow}
    {columns : List String} {i : Nat}
    (hi : i < max sheetRows.length dbRows.length) :
    (∃ it ∈ (computeDiff sheetRows dbRows columns).inserts, it.index = i) ↔
      (classifyIndex sheetRows dbRows columns i).isIns = true := by
  rw [computeDiff_inserts]
  constructor
  · rintro ⟨it, hmem, hidx⟩
    obtain ⟨a, _, hfa⟩ := List.mem_filterMap.mp hmem
    have hcl := classify_ins_of_some hfa
    have hia : a = i := by rw [← hidx, classify_ins_index hcl]
    rw [← hia, hcl]
    rfl
  · intro hins
    obtain ⟨rc, hrc⟩ : ∃ rc, classifyIndex sheetRows dbRows columns i = rc := ⟨_, rfl⟩
    cases rc with
    | ins it =>
      refine ⟨it, List.mem_filterMap.mpr ⟨i, List.mem_range.mpr hi, by rw [hrc]⟩,
        classify_ins_index hrc⟩
    | upd it => rw [hrc] at hins; exact Bool.noConfusion hins
    | del it => rw [hrc] at hins; exact Bool.noConfusion hins
    | unch => rw [hrc] at hins; exact Bool.noConfusion hins
    | outOfRange => rw [hrc] at hins; exact Bool.noConfusion hins

/-- Membership of a position in the update list is classification as update. -/
theorem mem_updates_iff {sheetRows : List Row} {dbRows : List DbRow}
    {columns : List String} {i : Nat}
    (hi : i < max sheetRows.length dbRows.length) :
    (∃ it ∈ (computeDiff sheetRows dbRows columns).updates, it.index = i) ↔
      (classifyIndex sheetRows dbRows columns i).isUpd = true := by
  rw [computeDiff_updates]
  constructor
  · rintro ⟨it, hmem, hidx⟩
    obtain ⟨a, _, hfa⟩ := List.mem_filterMap.mp hmem
    have hcl := classify_upd_of_some hfa
    have hia : a = i := by rw [← hidx, classify_upd_index hcl]
    rw [← hia, hcl]
    rfl
  · intro hupd
    obtain ⟨rc, hrc⟩ : ∃ rc, classifyIndex sheetRows dbRows columns i = rc := ⟨_, rfl⟩
    cases rc with
    | upd it =>
      refine ⟨it, List.mem_filterMap.mpr ⟨i, List.mem_range.mpr hi, by rw [hrc]⟩,
        classify_upd_index hrc⟩
    | ins it => rw [hrc] at hupd; exact Bool.noConfusion hupd
    | del it => rw [hrc] at hupd; exact Bool.noConfusion hupd
    | unch => rw [hrc] at hupd; exact Bool.noConfusion hupd
    | outOfRange => rw [hrc] at hupd; exact Bool.noConfusion hupd

/-- Membership of a position in the delete list is classification as delete. -/
theorem mem_deletes_iff {sheetRows : List Row} {dbRows : List DbRow}
    {columns : List String} {i : Nat}
    (hi : i < max sheetRows.length dbRows.length) :
    (∃ it ∈ (computeDiff sheetRows dbRows columns).deletes, it.index = i) ↔
      (classifyIndex sheetRows dbRows columns i).isDel = true := by
  rw [computeDiff_deletes]
  constructor
  · rintro ⟨it, hmem, hidx⟩
    obtain ⟨a, _, hfa⟩ := List.mem_filterMap.mp hmem
    have hcl := classify_del_of_some hfa
    have hia : a = i := by rw [← hidx, classify_del_index hcl]
    rw [← hia, hcl]
    rfl
  · intro hdel
    obtain ⟨rc, hrc⟩ : ∃ rc, classifyIndex sheetRows dbRows columns i = rc := ⟨_, rfl⟩
    cases rc with
    | del it =>
      refine ⟨it, List.mem_filterMap.mpr ⟨i, List.mem_range.mpr hi, by rw [hrc]⟩,
        classify_del_index hrc⟩
    | ins it => rw [hrc] at hdel; exact Bool.noConfusion hdel
    | upd it => rw [hrc] at hdel; exact Bool.noConfusion hdel
    | unch => rw [hrc] at hdel; exact Bool.noConfusion hdel
    | outOfRange => rw [hrc] at hdel; exact Bool.noConfusion hdel

/-- C1: `computeDiff` classifies every in-range position into exactly one of
insert, update, delete or unchanged, and the counts satisfy
`len(inserts) + len(updates) + len(deletes) + unchanged
  = max(len(sourceRows), len(snapshotRows))`. -/
theorem C1_diff_completeness (sheetRows : List Row) (dbRows : List DbRow)
    (columns : List String) :
    (((computeDiff sheetRows dbRows columns).inserts.length : Int) +
      ((computeDiff sheetRows dbRows columns).updates.length : Int) +
      ((computeDiff sheetRows dbRows columns).deletes.length : Int) +
      (computeDiff sheetRows dbRows columns).unchanged =
      ((max sheetRows.length dbRows.length : Nat) : Int)) ∧
    ∀ i, i < max sheetRows.length dbRows.length →
      exactlyOne4
        (∃ it ∈ (computeDiff sheetRows dbRows columns).inserts, it.index = i)
        (∃ it ∈ (computeDiff sheetRows dbRows columns).updates, it.index = i)
        (∃ it ∈ (computeDiff sheetRows dbRows columns).deletes, it.index = i)
        (unchangedAt sheetRows dbRows columns i) := by
  constructor
  · have hpart := countP_partition sheetRows dbRows columns
      (List.range (max sheetRows.length dbRows.length))
      (fun i hi => classify_not_oor (List.mem_range.mp hi))
    have hsheet := countP_sheet_present sheetRows dbRows columns
      (List.range (max sheetRows.length dbRows.length))
    rw [countP_range_lt, min_eq_left (le_max_left _ _)] at hsheet
    rw [computeDiff_unchanged, computeDiff_inserts_length,
      computeDiff_updates_length, computeDiff_deletes_length,
      List.length_range] at *
    omega
  · intro i hi
    unfold exactlyOne4
    rw [mem_inserts_iff hi, mem_updates_iff hi, mem_deletes_iff hi, unchangedAt_iff]
    obtain ⟨rc, hrc⟩ : ∃ rc, classifyIndex sheetRows dbRows columns i = rc := ⟨_, rfl⟩
    rw [hrc]
    cases rc with
    | ins it =>
      exact Or.inl ⟨rfl, fun hcontra => Bool.noConfusion hcontra,
        fun hcontra => Bool.noConfusion hcontra, fun hcontra => Bool.noConfusion hcontra⟩
    | upd it =>
      exact Or.inr (Or.inl ⟨fun hcontra => Bool.noConfusion hcontra, rfl,
        fun hcontra => Bool.noConfusion hcontra, fun hcontra => Bool.noConfusion hcontra⟩)
    | del it =>
      exact Or.inr (Or.inr (Or.inl ⟨fun hcontra => Bool.noConfusion hcontra,
        fun hcontra => Bool.noConfusion hcontra, rfl,
        fun hcontra => Bool.noConfusion hcontra⟩))
    | unch =>
      exact Or.inr (Or.inr (Or.inr ⟨fun hcontra => Bool.noConfusion hcontra,
        fun hcontra => Bool.noConfusion hcontra,
        fun hcontra => Bool.noConfusion hcontra, rfl⟩))
    | outOfRange => exact absurd hrc (classify_not_oor hi)

/-- Concrete instantiation of `C1_diff_completeness`: with an empty sheet
against a one-row snapshot, position 0 falls in exactly one category. -/
theorem C1_diff_completeness_witness :
    exactlyOne4
      (∃ it ∈ (computeDiff [] [⟨fun _ => none, some "h", some "r", some 1⟩] ["a"]).inserts,
        it.index = 0)
      (∃ it ∈ (computeDiff [] [⟨fun _ => none, some "h", some "r", some 1⟩] ["a"]).updates,
        it.index = 0)
      (∃ it ∈ (computeDiff [] [⟨fun _ => none, some "h", some "r", some 1⟩] ["a"]).deletes,
        it.index = 0)
      (unchangedAt [] [⟨fun _ => none, some "h", some "r", some 1⟩] ["a"] 0) :=
  (C1_diff_completeness [] [⟨fun _ => none, some "h", some "r", some 1⟩] ["a"]).2 0
    (by decide)

/-! ## Snapshot store (src/lib/database/sync.js, src/lib/database/schema.js)

The physical table is embedded as an explicit state: the list of its data
column names (the non-system columns that the information-schema query
returns), the stored entries, and the `SERIAL` counter for `id`. Each entry
carries the system columns consulted by the sync module (`id`, `row_hash`,
`revision`, `source`, `deleted_at`) and its data-column values positionally
aligned with the column list (`NULL` as `none`). Timestamps are abstract
ticks: `CURRENT_TIMESTAMP` is the `now` parameter of a call.
-/

/-- A stored row of the snapshot table. -/
structure Entry where
  id : Nat
  row_hash : String
  revision : Nat
  source : String
  deleted_at : Option Nat
  vals : List (Option String)
deriving DecidableEq

/-- The snapshot table state. -/
structure Table where
  cols : List String
  rows : List Entry
  nextId : Nat
deriving DecidableEq

/-- Word characters kept by the sanitizer (`[a-zA-Z0-9_]`). -/
def isWordChar (c : Char) : Bool := c.isAlphanum || c = '_'

/-- `replace(/_+/g, '_')`: collapse runs of underscores to one. -/
def collapseUnderscores : List Char → List Char
  | [] => []
  | [c] => [c]
  | c1 :: c2 :: rest =>
      if c1 = '_' && c2 = '_' then collapseUnderscores (c2 :: rest)
      else c1 :: collapseUnderscores (c2 :: rest)

/-- JS `String.prototype.trim`: drop leading and trailing whitespace. -/
def trimChars (l : List Char) : List Char :=
  ((l.dropWhile Char.isWhitespace).reverse.dropWhile Char.isWhitespace).reverse

/-- `sanitizeColumnName` (schema.js): trim, replace non-word characters by
`'_'`, collapse underscore runs, lowercase, prefix `col_` when starting with a
digit, truncate to 63 characters, defaulting to `unnamed_column` when empty. -/
def sanitizeColumnName (columnName : String) : String :=
  let step1 := (trimChars columnName.data).map (fun c => if isWordChar c then c else '_')
  let step2 := (collapseUnderscores step1).map Char.toLower
  let step3 := if (step2.headD 'a').isDigit then 'c' :: 'o' :: 'l' :: '_' :: step2 else step2
  let step4 := String.mk (step3.take 63)
  if step4 = "" then "unnamed_column" else step4

/-- The collision-avoidance loop of `applyDiff`/`storeSnapshot`: append `_1`,
`_2`, … until the name is unseen. The JS `while` always terminates because at
most `seen.length` candidates can be taken; the fuel passed in exceeds that. -/
def uniquifyLoop (s : String) (seen : List String) : Nat → Nat → String
  | n, 0 => s ++ "_" ++ toString n
  | n, fuel + 1 =>
      let cand := s ++ "_" ++ toString n
      if seen.contains cand then uniquifyLoop s seen (n + 1) fuel else cand

/-- The column-mapping loop: sanitize each original column, de-duplicating
repeated sanitized names with numeric suffixes (`seen` is the set of already
chosen sanitized names). -/
def sanitizeLoop : List String → List String → List String
  | [], _ => []
  | c :: rest, seen =>
      let s := sanitizeColumnName c
      let s2 := if seen.contains s then uniquifyLoop s seen 1 (seen.length + 1) else s
      s2 :: sanitizeLoop rest (s2 :: seen)

/-- The `sanitizedColumns` array built at the top of `applyDiff` and
`storeSnapshot`. -/
def buildSanitizedColumns (columns : List String) : List String :=
  sanitizeLoop columns []

/-- `sanitizedColumns.filter(col => !dbColumnNames.has(col))`. -/
def missingColumns (tbl : Table) (sanitizedColumns : List String) : List String :=
  sanitizedColumns.filter (fun col => !(tbl.cols.contains col))

/-- The schema-mismatch error message. -/
def joinComma : List String → String
  | [] => ""
  | [s] => s
  | s :: t :: rest => s ++ ", " ++ joinComma (t :: rest)

/-- The error thrown when sanitized columns are missing from the table. -/
def schemaErrorMsg (missing : List String) : String :=
  "Database columns missing: " ++ joinComma missing ++ ". Please sync schema first."

/-- The `dataValues` array: one normalized value per original column
(`null`/`undefined` stay SQL `NULL`, everything else its string form). -/
def dataValues (row : Row) (columns : List String) : List (Option String) :=
  columns.map (fun originalCol => row originalCol)

/-- The effect of the UPDATE `SET` list on the positional values of an entry:
columns named in the sanitized list take their new value, others keep theirs. -/
def setVals (cols : List String) (oldVals : List (Option String))
    (sanitizedColumns : List String) (values : List (Option String)) :
    List (Option String) :=
  (cols.zip oldVals).map (fun p =>
    match (sanitizedColumns.zip values).lookup p.1 with
    | some v => v
    | none => p.2)

/-- The values of a freshly inserted entry: named columns take their value,
all other physical columns are `NULL`. -/
def insertVals (cols sanitizedColumns : List String)
    (values : List (Option String)) : List (Option String) :=
  cols.map (fun c =>
    match (sanitizedColumns.zip values).lookup c with
    | some v => v
    | none => none)

/-- One row under the update statement
`UPDATE ... SET row_hash, revision, source, cols... WHERE id = $dbId AND
deleted_at IS NULL`. -/
def updateEntry (cols sanitizedColumns : List String)
    (values : List (Option String)) (hash : String) (rev dbId : Nat)
    (e : Entry) : Entry :=
  if e.id = dbId ∧ e.deleted_at = none then
    { e with
        row_hash := hash
        revision := rev
        source := "sheet"
        vals := setVals cols e.vals sanitizedColumns values }
  else e

/-- The whole update statement, applied to every stored row. -/
def applyUpdateItem (tbl : Table) (sanitizedColumns : List String)
    (values : List (Option String)) (hash : String) (rev dbId : Nat) : Table :=
  { tbl with
      rows := tbl.rows.map (updateEntry tbl.cols sanitizedColumns values hash rev dbId) }

/-- One row under
`UPDATE ... SET deleted_at = CURRENT_TIMESTAMP, revision = $1 WHERE id = $2
AND deleted_at IS NULL`. -/
def tombstoneById (rev now dbId : Nat) (e : Entry) : Entry :=
  if e.id = dbId ∧ e.deleted_at = none then
    { e with deleted_at := some now, revision := rev }
  else e

/-- The whole soft delete by `id`. -/
def applyDeleteById (tbl : Table) (rev now dbId : Nat) : Table :=
  { tbl with rows := tbl.rows.map (tombstoneById rev now dbId) }

/-- One row under the hash-fallback soft delete
(`WHERE row_hash = $2 AND deleted_at IS NULL`). -/
def tombstoneByHash (rev now : Nat) (hash : String) (e : Entry) : Entry :=
  if e.row_hash = hash ∧ e.deleted_at = none then
    { e with deleted_at := some now, revision := rev }
  else e

/-- The whole soft delete by hash. -/
def applyDeleteByHash (tbl : Table) (rev now : Nat) (hash : String) : Table :=
  { tbl with rows := tbl.rows.map (tombstoneByHash rev now hash) }

/-- One `INSERT` of a snapshot row: a fresh serial `id`, the given hash and
revision, `source = 'sheet'`, `deleted_at` defaulting to `NULL`. -/
def applyInsertEntry (tbl : Table) (sanitizedColumns : List String)
    (values : List (Option String)) (hash : String) (rev : Nat) : Table :=
  { tbl with
      rows := tbl.rows ++
        [⟨tbl.nextId, hash, rev, "sheet", none, insertVals tbl.cols sanitizedColumns values⟩]
      nextId := tbl.nextId + 1 }

/-- The UPDATE loop of `applyDiff`: items without a truthy `dbId` are skipped
(`if (!dbId) { skipped++; continue }`); every other item issues the update
statement and increments `updated` (whether or not the `WHERE` clause matched
a row). -/
def updatesLoop (columns sanitizedColumns : List String) (currentRevision : Nat) :
    Table → List UpdateItem → Nat → Nat → Table × Nat × Nat
  | tbl, [], updated, skipped => (tbl, updated, skipped)
  | tbl, item :: rest, updated, skipped =>
      match item.dbId with
      | none =>
          updatesLoop columns sanitizedColumns currentRevision tbl rest
            updated (skipped + 1)
      | some dbId =>
          if dbId = 0 then
            updatesLoop columns sanitizedColumns currentRevision tbl rest
              updated (skipped + 1)
          else
            updatesLoop columns sanitizedColumns currentRevision
              (applyUpdateItem tbl sanitizedColumns (dataValues item.row columns)
                item.hash currentRevision dbId)
              rest (updated + 1) skipped

/-- The INSERT loop of `applyDiff`. -/
def insertsLoop (columns sanitizedColumns : List String) (currentRevision : Nat) :
    Table → List InsertItem → Nat → Nat → Table × Nat × Nat
  | tbl, [], inserted, skipped => (tbl, inserted, skipped)
  | tbl, item :: rest, inserted, skipped =>
      insertsLoop columns sanitizedColumns currentRevision
        (applyInsertEntry tbl sanitizedColumns (dataValues item.row columns)
          item.hash currentRevision)
        rest (inserted + 1) skipped

/-- One delete item's statement: by `id` when `dbId` is truthy, by hash
otherwise. -/
def deleteStep (rev now : Nat) (tbl : Table) (item : DeleteItem) : Table :=
  match item.dbId with
  | some dbId =>
      if dbId = 0 then applyDeleteByHash tbl rev now item.hash
      else applyDeleteById tbl rev now dbId
  | none => applyDeleteByHash tbl rev now item.hash

/-- The soft-DELETE loop of `applyDiff`: every item issues its statement and
increments `deleted`. -/
def deletesLoop (currentRevision now : Nat) :
    Table → List DeleteItem → Nat → Nat → Table × Nat × Nat
  | tbl, [], deleted, skipped => (tbl, deleted, skipped)
  | tbl, item :: rest, deleted, skipped =>
      deletesLoop currentRevision now (deleteStep currentRevision now tbl item)
        rest (deleted + 1) skipped

/-- The result object of `applyDiff`. -/
structure ApplyResult where
  inserted : Nat
  updated : Nat
  deleted : Nat
  skipped : Nat
deriving DecidableEq

/-- The three mutation phases of `applyDiff` in source order
(updates → inserts → deletes), with the shared counters threaded through. -/
def applyDiffPhases (tbl : Table) (columns : List String) (diff : DiffResult)
    (currentRevision now : Nat) : ApplyResult × Table :=
  let r1 := updatesLoop columns (buildSanitizedColumns columns) currentRevision
    tbl diff.updates 0 0
  let r2 := insertsLoop columns (buildSanitizedColumns columns) currentRevision
    r1.1 diff.inserts 0 r1.2.2
  let r3 := deletesLoop currentRevision now r2.1 diff.deletes 0 r2.2.2
  (⟨r2.2.1, r1.2.1, r3.2.1, r3.2.2⟩, r3.1)

/-- `applyDiff(tableName, columns, diff, currentRevision)`: verify the schema
before any mutation — missing sanitized columns throw, the transaction rolls
back and no state change escapes — then run the three phases inside the
transaction and commit. -/
def applyDiff (tbl : Table) (columns : List String) (diff : DiffResult)
    (currentRevision now : Nat) : Except String (ApplyResult × Table) :=
  if (missingColumns tbl (buildSanitizedColumns columns)).isEmpty then
    Except.ok (applyDiffPhases tbl columns diff currentRevision now)
  else
    Except.error (schemaErrorMsg (missingColumns tbl (buildSanitizedColumns columns)))

/-- The table state as seen by the caller after `applyDiff`: on error the
transaction rolled back, so the table is unchanged. -/
def applyDiffState (tbl : Table) (columns : List String) (diff : DiffResult)
    (currentRevision now : Nat) : Table :=
  match applyDiff tbl columns diff currentRevision now with
  | Except.ok p => p.2
  | Except.error _ => tbl

/-- The bulk-seed INSERT loop of `storeSnapshot`: hash each sheet row and
insert it with `revision = 1`, `source = 'sheet'`. -/
def seedLoop (columns sanitizedColumns : List String) :
    Table → List Row → Nat → Nat → Table × Nat × Nat
  | tbl, [], inserted, skipped => (tbl, inserted, skipped)
  | tbl, row :: rest, inserted, skipped =>
      seedLoop columns sanitizedColumns
        (applyInsertEntry tbl sanitizedColumns (dataValues row columns)
          (computeRowHash row columns) 1)
        rest (inserted + 1) skipped

/-- `storeSnapshot(tableName, columns, data, computeRowHash)`: the same schema
check as `applyDiff`, then the bulk seed inside the transaction. -/
def storeSnapshot (tbl : Table) (columns : List String) (data : List Row) :
    Except String ((Nat × Nat) × Table) :=
  if (missingColumns tbl (buildSanitizedColumns columns)).isEmpty then
    match seedLoop columns (buildSanitizedColumns columns) tbl data 0 0 with
    | (tbl2, inserted, skipped) => Except.ok ((inserted, skipped), tbl2)
  else
    Except.error (schemaErrorMsg (missingColumns tbl (buildSanitizedColumns columns)))

/-- The caller-visible table after `storeSnapshot` (rollback on error). -/
def storeSnapshotState (tbl : Table) (columns : List String) (data : List Row) :
    Table :=
  match storeSnapshot tbl columns data with
  | Except.ok p => p.2
  | Except.error _ => tbl

/-- A row object returned by `getSnapshot`. -/
structure SnapObj where
  id : Nat
  row_hash : String
  revision : Nat
  source : String
  deleted_at : Option Nat
  data : List (String × String)
deriving DecidableEq

/-- The original-column payload of a `getSnapshot` row object: each requested
original column maps back through its sanitized name, absent physical columns
and `NULL`/empty values becoming the empty string. -/
def snapObjData (tbl : Table) (e : Entry) (columns : List String) :
    List (String × String) :=
  columns.map (fun originalCol =>
    let sanitizedCol := sanitizeColumnName originalCol
    if tbl.cols.contains sanitizedCol then
      (originalCol, (((tbl.cols.zip e.vals).lookup sanitizedCol).join).getD "")
    else (originalCol, ""))

/-- `getSnapshot(tableName, columns)`:
`SELECT ... WHERE deleted_at IS NULL ORDER BY id`, mapped back to row
objects. Read-only. -/
def getSnapshot (tbl : Table) (columns : List String) : List SnapObj :=
  ((tbl.rows.filter (fun e => e.deleted_at = none)).insertionSort
      (fun a b => a.id ≤ b.id)).map
    (fun e => ⟨e.id, e.row_hash, e.revision, e.source, e.deleted_at,
      snapObjData tbl e columns⟩)

/-- Well-formedness of a table: stored ids are distinct and below the serial
counter (what `SERIAL PRIMARY KEY` guarantees). -/
def WFTable (tbl : Table) : Prop :=
  (tbl.rows.map (fun e => e.id)).Nodup ∧ ∀ e ∈ tbl.rows, e.id < tbl.nextId

/-- Truthiness of a JS `dbId` (`undefined`, `null` and `0` are falsy). -/
def hasDbId : Option Nat → Bool
  | none => false
  | some n => decide (n ≠ 0)

/-- An entry is referenced by a diff when an update targets its id, a delete
targets its id, or a hash-fallback delete matches its stored hash. -/
def referencedEntry (diff : DiffResult) (e : Entry) : Prop :=
  (∃ u ∈ diff.updates, hasDbId u.dbId = true ∧ u.dbId = some e.id) ∨
  (∃ d ∈ diff.deletes, (hasDbId d.dbId = true ∧ d.dbId = some e.id) ∨
    (hasDbId d.dbId = false ∧ d.hash = e.row_hash))

/-! ### Entry-level facts about the three SQL statements -/

/-- An update statement never changes an entry's id. -/
theorem updateEntry_id (cols sc : List String) (v : List (Option String))
    (h : String) (rev dbId : Nat) (e : Entry) :
    (updateEntry cols sc v h rev dbId e).id = e.id := by
  unfold updateEntry
  split <;> rfl

/-- An update statement never changes an entry's tombstone. -/
theorem updateEntry_deleted (cols sc : List String) (v : List (Option String))
    (h : String) (rev dbId : Nat) (e : Entry) :
    (updateEntry cols sc v h rev dbId e).deleted_at = e.deleted_at := by
  unfold updateEntry
  split <;> rfl

/-- An update statement leaves an entry with a different id untouched. -/
theorem updateEntry_of_ne (cols sc : List String) (v : List (Option String))
    (h : String) (rev dbId : Nat) (e : Entry) (hne : e.id ≠ dbId) :
    updateEntry cols sc v h rev dbId e = e := by
  unfold updateEntry
  rw [if_neg (fun hc => hne hc.1)]

/-- An update statement leaves a soft-deleted entry untouched
(`WHERE ... AND deleted_at IS NULL`). -/
theorem updateEntry_of_dead (cols sc : List String) (v : List (Option String))
    (h : String) (rev dBId : Nat) (e : Entry) (hdead : e.deleted_at ≠ none) :
    updateEntry cols sc v h rev dBId e = e := by
  unfold updateEntry
  rw [if_neg (fun hc => hdead hc.2)]

/-- An update statement either leaves an entry alone or stamps the pass
revision on it. -/
theorem updateEntry_orig_or_rev (cols sc : List String) (v : List (Option String))
    (h : String) (rev dbId : Nat) (e : Entry) :
    updateEntry cols sc v h rev dbId e = e ∨
      (updateEntry cols sc v h rev dbId e).revision = rev := by
  unfold updateEntry
  split
  · right
    rfl
  · left
    rfl

/-- The per-entry effect of one delete item's statement. -/
def deleteStepEntry (rev now : Nat) (item : DeleteItem) (e : Entry) : Entry :=
  match item.dbId with
  | some dbId =>
      if dbId = 0 then tombstoneByHash rev now item.hash e
      else tombstoneById rev now dbId e
  | none => tombstoneByHash rev now item.hash e

/-- A delete item's statement maps its per-entry effect over the rows. -/
theorem deleteStep_rows (rev now : Nat) (tbl : Table) (item : DeleteItem) :
    deleteStep rev now tbl item =
      { tbl with rows := tbl.rows.map (deleteStepEntry rev now item) } := by
  unfold deleteStep deleteStepEntry applyDeleteByHash applyDeleteById
  cases hdb : item.dbId with
  | none => rfl
  | some dbId => by_cases h0 : dbId = 0 <;> simp [h0]

/-- Reduction of the delete step for a present `dbId`. -/
theorem deleteStepEntry_some (rev now : Nat) (item : DeleteItem) (e : Entry)
    (d : Nat) (hdb : item.dbId = some d) :
    deleteStepEntry rev now item e =
      if d = 0 then tombstoneByHash rev now item.hash e
      else tombstoneById rev now d e := by
  unfold deleteStepEntry
  rw [hdb]

/-- Reduction of the delete step for an absent `dbId`. -/
theorem deleteStepEntry_none (rev now : Nat) (item : DeleteItem) (e : Entry)
    (hdb : item.dbId = none) :
    deleteStepEntry rev now item e = tombstoneByHash rev now item.hash e := by
  unfold deleteStepEntry
  rw [hdb]

/-- Tombstoning by id preserves the id. -/
theorem tombstoneById_id (rev now dbId : Nat) (e : Entry) :
    (tombstoneById rev now dbId e).id = e.id := by
  unfold tombstoneById
  split <;> rfl

/-- Tombstoning by hash preserves the id. -/
theorem tombstoneByHash_id (rev now : Nat) (hash : String) (e : Entry) :
    (tombstoneByHash rev now hash e).id = e.id := by
  unfold tombstoneByHash
  split <;> rfl

/-- Tombstoning by id skips already tombstoned entries. -/
theorem tombstoneById_of_dead (rev now dbId : Nat) (e : Entry)
    (hdead : e.deleted_at ≠ none) : tombstoneById rev now dbId e = e := by
  unfold tombstoneById
  rw [if_neg (fun hc => hdead hc.2)]

/-- Tombstoning by hash skips already tombstoned entries. -/
theorem tombstoneByHash_of_dead (rev now : Nat) (hash : String) (e : Entry)
    (hdead : e.deleted_at ≠ none) : tombstoneByHash rev now hash e = e := by
  unfold tombstoneByHash
  rw [if_neg (fun hc => hdead hc.2)]

/-- Tombstoning by id skips entries with a different id. -/
theorem tombstoneById_of_ne (rev now dbId : Nat) (e : Entry)
    (hne : e.id ≠ dbId) : tombstoneById rev now dbId e = e := by
  unfold tombstoneById
  rw [if_neg (fun hc => hne hc.1)]

/-- Tombstoning by hash skips entries with a different hash. -/
theorem tombstoneByHash_of_ne (rev now : Nat) (hash : String) (e : Entry)
    (hne : e.row_hash ≠ hash) : tombstoneByHash rev now hash e = e := by
  unfold tombstoneByHash
  rw [if_neg (fun hc => hne hc.1)]

/-- Tombstoning by id either skips or stamps the pass tombstone. -/
theorem tombstoneById_cases (rev now dbId : Nat) (e : Entry) :
    tombstoneById rev now dbId e = e ∨
      tombstoneById rev now dbId e =
        { e with deleted_at := some now, revision := rev } := by
  unfold tombstoneById
  split
  · right
    rfl
  · left
    rfl

/-- Tombstoning by hash either skips or stamps the pass tombstone. -/
theorem tombstoneByHash_cases (rev now : Nat) (hash : String) (e : Entry) :
    tombstoneByHash rev now hash e = e ∨
      tombstoneByHash rev now hash e =
        { e with deleted_at := some now, revision := rev } := by
  unfold tombstoneByHash
  split
  · right
    rfl
  · left
    rfl

/-- A soft delete never changes an entry's id. -/
theorem deleteStepEntry_id (rev now : Nat) (item : DeleteItem) (e : Entry) :
    (deleteStepEntry rev now item e).id = e.id := by
  rcases hdb : item.dbId with _ | d
  · rw [deleteStepEntry_none rev now item e hdb, tombstoneByHash_id]
  · rw [deleteStepEntry_some rev now item e d hdb]
    by_cases h0 : d = 0
    · rw [if_pos h0, tombstoneByHash_id]
    · rw [if_neg h0, tombstoneById_id]

/-- A soft delete leaves an already tombstoned entry untouched. -/
theorem deleteStepEntry_of_dead (rev now : Nat) (item : DeleteItem) (e : Entry)
    (hdead : e.deleted_at ≠ none) :
    deleteStepEntry rev now item e = e := by
  rcases hdb : item.dbId with _ | d
  · rw [deleteStepEntry_none rev now item e hdb, tombstoneByHash_of_dead _ _ _ _ hdead]
  · rw [deleteStepEntry_some rev now item e d hdb]
    by_cases h0 : d = 0
    · rw [if_pos h0, tombstoneByHash_of_dead _ _ _ _ hdead]
    · rw [if_neg h0, tombstoneById_of_dead _ _ _ _ hdead]

/-- A soft delete either leaves an entry alone or tombstones it with the pass
timestamp and revision. -/
theorem deleteStepEntry_cases (rev now : Nat) (item : DeleteItem) (e : Entry) :
    deleteStepEntry rev now item e = e ∨
      deleteStepEntry rev now item e =
        { e with deleted_at := some now, revision := rev } := by
  rcases hdb : item.dbId with _ | d
  · rw [deleteStepEntry_none rev now item e hdb]
    exact (tombstoneByHash_cases rev now item.hash e).symm.imp id id |>.symm |>.imp id id
  · rw [deleteStepEntry_some rev now item e d hdb]
    by_cases h0 : d = 0
    · rw [if_pos h0]
      exact tombstoneByHash_cases rev now item.hash e
    · rw [if_neg h0]
      exact tombstoneById_cases rev now d e

/-- A delete item whose truthy `dbId` matches an active entry tombstones it. -/
theorem deleteStepEntry_target (rev now : Nat) (item : DeleteItem) (e : Entry)
    (i : Nat) (hdb : item.dbId = some i) (hi0 : i ≠ 0) (hid : e.id = i)
    (hact : e.deleted_at = none) :
    deleteStepEntry rev now item e =
      { e with deleted_at := some now, revision := rev } := by
  rw [deleteStepEntry_some rev now item e i hdb, if_neg hi0]
  unfold tombstoneById
  rw [if_pos ⟨hid, hact⟩]

/-- A delete item that references an entry neither by truthy id nor by the
hash fallback leaves it untouched. -/
theorem deleteStepEntry_of_unref (rev now : Nat) (item : DeleteItem) (e : Entry)
    (h : ¬ ((hasDbId item.dbId = true ∧ item.dbId = some e.id) ∨
      (hasDbId item.dbId = false ∧ item.hash = e.row_hash))) :
    deleteStepEntry rev now item e = e := by
  rcases hdb : item.dbId with _ | d
  · rw [deleteStepEntry_none rev now item e hdb]
    refine tombstoneByHash_of_ne _ _ _ _ (fun hc => h (Or.inr ⟨?_, hc.symm⟩))
    rw [hdb]
    rfl
  · rw [deleteStepEntry_some rev now item e d hdb]
    by_cases h0 : d = 0
    · rw [if_pos h0]
      refine tombstoneByHash_of_ne _ _ _ _ (fun hc => h (Or.inr ⟨?_, hc.symm⟩))
      rw [hdb, h0]
      rfl
    · rw [if_neg h0]
      refine tombstoneById_of_ne _ _ _ _ (fun hc => h (Or.inl ⟨?_, ?_⟩))
      · rw [hdb]
        simp [hasDbId, h0]
      · rw [hdb, hc]

/-! ### Loop-level facts -/

/-- Reduction of the update loop at an item with absent `dbId`. -/
theorem updatesLoop_cons_none (c sc : List String) (rev : Nat) (tbl : Table)
    (item : UpdateItem) (rest : List UpdateItem) (u s : Nat)
    (h : item.dbId = none) :
    updatesLoop c sc rev tbl (item :: rest) u s =
      updatesLoop c sc rev tbl rest u (s + 1) := by
  conv_lhs => rw [updatesLoop.eq_def]
  simp only [h]

/-- Reduction of the update loop at an item with `dbId` zero (falsy in JS). -/
theorem updatesLoop_cons_zero (c sc : List String) (rev : Nat) (tbl : Table)
    (item : UpdateItem) (rest : List UpdateItem) (u s : Nat)
    (h : item.dbId = some 0) :
    updatesLoop c sc rev tbl (item :: rest) u s =
      updatesLoop c sc rev tbl rest u (s + 1) := by
  conv_lhs => rw [updatesLoop.eq_def]
  simp only [h, reduceIte]

/-- Reduction of the update loop at an item with truthy `dbId`. -/
theorem updatesLoop_cons_some (c sc : List String) (rev : Nat) (tbl : Table)
    (item : UpdateItem) (rest : List UpdateItem) (u s : Nat) (d : Nat)
    (h : item.dbId = some d) (h0 : d ≠ 0) :
    updatesLoop c sc rev tbl (item :: rest) u s =
      updatesLoop c sc rev
        (applyUpdateItem tbl sc (dataValues item.row c) item.hash rev d)
        rest (u + 1) s := by
  conv_lhs => rw [updatesLoop.eq_def]
  simp only [h]
  rw [if_neg h0]

/-- An update statement does not change the column list. -/
theorem applyUpdateItem_cols (tbl : Table) (sc : List String)
    (v : List (Option String)) (h : String) (rev d : Nat) :
    (applyUpdateItem tbl sc v h rev d).cols = tbl.cols := rfl

/-- An update statement does not change the serial counter. -/
theorem applyUpdateItem_nextId (tbl : Table) (sc : List String)
    (v : List (Option String)) (h : String) (rev d : Nat) :
    (applyUpdateItem tbl sc v h rev d).nextId = tbl.nextId := rfl

/-- An update statement preserves every row's id and tombstone. -/
theorem applyUpdateItem_pairs (tbl : Table) (sc : List String)
    (v : List (Option String)) (h : String) (rev d : Nat) :
    (applyUpdateItem tbl sc v h rev d).rows.map (fun e => (e.id, e.deleted_at)) =
      tbl.rows.map (fun e => (e.id, e.deleted_at)) := by
  show (tbl.rows.map (updateEntry tbl.cols sc v h rev d)).map
      (fun e => (e.id, e.deleted_at)) = _
  rw [List.map_map]
  apply List.map_congr_left
  intro e _
  show ((updateEntry tbl.cols sc v h rev d e).id,
    (updateEntry tbl.cols sc v h rev d e).deleted_at) = (e.id, e.deleted_at)
  rw [updateEntry_id, updateEntry_deleted]

/-- The update loop preserves the column list, the serial counter, and every
row's id and tombstone. -/
theorem updatesLoop_state (c sc : List String) (rev : Nat)
    (items : List UpdateItem) :
    ∀ (tbl : Table) (u s : Nat),
      ((updatesLoop c sc rev tbl items u s).1).cols = tbl.cols ∧
      ((updatesLoop c sc rev tbl items u s).1).nextId = tbl.nextId ∧
      ((updatesLoop c sc rev tbl items u s).1).rows.map (fun e => (e.id, e.deleted_at)) =
        tbl.rows.map (fun e => (e.id, e.deleted_at)) := by
  induction items with
  | nil =>
    intro tbl u s
    exact ⟨rfl, rfl, rfl⟩
  | cons item rest ih =>
    intro tbl u s
    rcases hdb : item.dbId with _ | d
    · rw [updatesLoop_cons_none c sc rev tbl item rest u s hdb]
      exact ih tbl u (s + 1)
    · by_cases h0 : d = 0
      · rw [h0] at hdb
        rw [updatesLoop_cons_zero c sc rev tbl item rest u s hdb]
        exact ih tbl u (s + 1)
      · rw [updatesLoop_cons_some c sc rev tbl item rest u s d hdb h0]
        obtain ⟨hc, hn, hp⟩ := ih
          (applyUpdateItem tbl sc (dataValues item.row c) item.hash rev d) (u + 1) s
        exact ⟨hc.trans (applyUpdateItem_cols tbl sc _ _ rev d),
          hn.trans (applyUpdateItem_nextId tbl sc _ _ rev d),
          hp.trans (applyUpdateItem_pairs tbl sc _ _ rev d)⟩

/-- Every row after the update loop is an original row or carries the pass
revision. -/
theorem updatesLoop_orig_or_rev (c sc : List String) (rev : Nat)
    (items : List UpdateItem) :
    ∀ (tbl : Table) (u s : Nat),
      ∀ e2 ∈ ((updatesLoop c sc rev tbl items u s).1).rows,
        e2 ∈ tbl.rows ∨ e2.revision = rev := by
  induction items with
  | nil =>
    intro tbl u s e2 he2
    exact Or.inl he2
  | cons item rest ih =>
    intro tbl u s e2 he2
    rcases hdb : item.dbId with _ | d
    · rw [updatesLoop_cons_none c sc rev tbl item rest u s hdb] at he2
      exact ih tbl u (s + 1) e2 he2
    · by_cases h0 : d = 0
      · rw [h0] at hdb
        rw [updatesLoop_cons_zero c sc rev tbl item rest u s hdb] at he2
        exact ih tbl u (s + 1) e2 he2
      · rw [updatesLoop_cons_some c sc rev tbl item rest u s d hdb h0] at he2
        rcases ih (applyUpdateItem tbl sc (dataValues item.row c) item.hash rev d)
          (u + 1) s e2 he2 with hmem | hrev
        · obtain ⟨e, he, hge⟩ := List.mem_map.mp hmem
          rcases updateEntry_orig_or_rev tbl.cols sc (dataValues item.row c)
            item.hash rev d e with heq | hrev2
          · exact Or.inl (by rw [← hge, heq]; exact he)
          · exact Or.inr (by rw [← hge]; exact hrev2)
        · exact Or.inr hrev

/-- The update loop leaves soft-deleted entries exactly as they are. -/
theorem updatesLoop_preserves_dead (c sc : List String) (rev : Nat)
    (items : List UpdateItem) :
    ∀ (tbl : Table) (u s : Nat) (e : Entry), e ∈ tbl.rows → e.deleted_at ≠ none →
      e ∈ ((updatesLoop c sc rev tbl items u s).1).rows := by
  induction items with
  | nil =>
    intro tbl u s e he _
    exact he
  | cons item rest ih =>
    intro tbl u s e he hdead
    rcases hdb : item.dbId with _ | d
    · rw [updatesLoop_cons_none c sc rev tbl item rest u s hdb]
      exact ih tbl u (s + 1) e he hdead
    · by_cases h0 : d = 0
      · rw [h0] at hdb
        rw [updatesLoop_cons_zero c sc rev tbl item rest u s hdb]
        exact ih tbl u (s + 1) e he hdead
      · rw [updatesLoop_cons_some c sc rev tbl item rest u s d hdb h0]
        refine ih _ (u + 1) s e ?_ hdead
        have hmm := List.mem_map_of_mem
          (updateEntry tbl.cols sc (dataValues item.row c) item.hash rev d) he
        rw [updateEntry_of_dead _ _ _ _ rev d e hdead] at hmm
        exact hmm

/-- The update loop leaves entries targeted by no item exactly as they are. -/
theorem updatesLoop_preserves_unref (c sc : List String) (rev : Nat)
    (items : List UpdateItem) :
    ∀ (tbl : Table) (u s : Nat) (e : Entry), e ∈ tbl.rows →
      (∀ it ∈ items, ¬ (hasDbId it.dbId = true ∧ it.dbId = some e.id)) →
      e ∈ ((updatesLoop c sc rev tbl items u s).1).rows := by
  induction items with
  | nil =>
    intro tbl u s e he _
    exact he
  | cons item rest ih =>
    intro tbl u s e he href
    have hrest := fun it hit => href it (List.mem_cons_of_mem item hit)
    rcases hdb : item.dbId with _ | d
    · rw [updatesLoop_cons_none c sc rev tbl item rest u s hdb]
      exact ih tbl u (s + 1) e he hrest
    · by_cases h0 : d = 0
      · rw [h0] at hdb
        rw [updatesLoop_cons_zero c sc rev tbl item rest u s hdb]
        exact ih tbl u (s + 1) e he hrest
      · rw [updatesLoop_cons_some c sc rev tbl item rest u s d hdb h0]
        have hne : e.id ≠ d := by
          intro hcontra
          refine href item (List.mem_cons_self item rest) ⟨?_, ?_⟩
          · rw [hdb]
            simp [hasDbId, h0]
          · rw [hdb, hcontra]
        refine ih _ (u + 1) s e ?_ hrest
        have hmm := List.mem_map_of_mem
          (updateEntry tbl.cols sc (dataValues item.row c) item.hash rev d) he
        rw [updateEntry_of_ne _ _ _ _ rev d e hne] at hmm
        exact hmm

/-- The update-loop counters: `updated` counts the items with truthy `dbId`,
`skipped` the rest. -/
theorem updatesLoop_counts (c sc : List String) (rev : Nat)
    (items : List UpdateItem) :
    ∀ (tbl : Table) (u s : Nat),
      (updatesLoop c sc rev tbl items u s).2.1 =
        u + (items.filter (fun it => hasDbId it.dbId)).length ∧
      (updatesLoop c sc rev tbl items u s).2.2 =
        s + (items.filter (fun it => !(hasDbId it.dbId))).length := by
  induction items with
  | nil =>
    intro tbl u s
    exact ⟨by simp [updatesLoop], by simp [updatesLoop]⟩
  | cons item rest ih =>
    intro tbl u s
    rcases hdb : item.dbId with _ | d
    · rw [updatesLoop_cons_none c sc rev tbl item rest u s hdb]
      obtain ⟨h1, h2⟩ := ih tbl u (s + 1)
      have hfalsy : hasDbId item.dbId = false := by rw [hdb]; rfl
      rw [List.filter_cons, List.filter_cons, hfalsy]
      constructor
      · rw [h1]
        simp
      · rw [h2]
        simp
        omega
    · by_cases h0 : d = 0
      · rw [h0] at hdb
        rw [updatesLoop_cons_zero c sc rev tbl item rest u s hdb]
        obtain ⟨h1, h2⟩ := ih tbl u (s + 1)
        have hfalsy : hasDbId item.dbId = false := by rw [hdb]; rfl
        rw [List.filter_cons, List.filter_cons, hfalsy]
        constructor
        · rw [h1]
          simp
        · rw [h2]
          simp
          omega
      · rw [updatesLoop_cons_some c sc rev tbl item rest u s d hdb h0]
        obtain ⟨h1, h2⟩ := ih
          (applyUpdateItem tbl sc (dataValues item.row c) item.hash rev d) (u + 1) s
        have htruthy : hasDbId item.dbId = true := by
          rw [hdb]
          simp [hasDbId, h0]
        rw [List.filter_cons, List.filter_cons, htruthy]
        constructor
        · rw [h1]
          simp
          omega
        · rw [h2]
          simp

/-- Reduction of the insert loop at an item. -/
theorem insertsLoop_cons (c sc : List String) (rev : Nat) (tbl : Table)
    (item : InsertItem) (rest : List InsertItem) (n s : Nat) :
    insertsLoop c sc rev tbl (item :: rest) n s =
      insertsLoop c sc rev
        (applyInsertEntry tbl sc (dataValues item.row c) item.hash rev)
        rest (n + 1) s := by
  conv_lhs => rw [insertsLoop.eq_def]

/-- Full specification of the insert loop: it appends fresh entries carrying
consecutive serial ids, the pass revision and no tombstone, advances the
serial counter, and counts every item as inserted. -/
theorem insertsLoop_spec (c sc : List String) (rev : Nat)
    (items : List InsertItem) :
    ∀ (tbl : Table) (n s : Nat),
      ∃ news,
        ((insertsLoop c sc rev tbl items n s).1).rows = tbl.rows ++ news ∧
        news.map (fun e => e.id) = List.range' tbl.nextId items.length ∧
        (∀ e2 ∈ news, e2.revision = rev ∧ e2.deleted_at = none) ∧
        ((insertsLoop c sc rev tbl items n s).1).nextId = tbl.nextId + items.length ∧
        ((insertsLoop c sc rev tbl items n s).1).cols = tbl.cols ∧
        (insertsLoop c sc rev tbl items n s).2.1 = n + items.length ∧
        (insertsLoop c sc rev tbl items n s).2.2 = s := by
  induction items with
  | nil =>
    intro tbl n s
    exact ⟨[], by simp [insertsLoop], by simp [insertsLoop], by simp,
      by simp [insertsLoop], by simp [insertsLoop], by simp [insertsLoop],
      by simp [insertsLoop]⟩
  | cons item rest ih =>
    intro tbl n s
    rw [insertsLoop_cons c sc rev tbl item rest n s]
    obtain ⟨news, hrows, hids, hprops, hnext, hcols, hcnt, hskip⟩ :=
      ih (applyInsertEntry tbl sc (dataValues item.row c) item.hash rev) (n + 1) s
    refine ⟨⟨tbl.nextId, item.hash, rev, "sheet", none,
      insertVals tbl.cols sc (dataValues item.row c)⟩ :: news, ?_, ?_, ?_, ?_, ?_, ?_, ?_⟩
    · rw [hrows]
      show (tbl.rows ++ [_]) ++ news = _
      rw [List.append_assoc]
      rfl
    · rw [List.map_cons, hids]
      show tbl.nextId :: List.range' (tbl.nextId + 1) rest.length =
        List.range' tbl.nextId (rest.length + 1)
      rfl
    · intro e2 he2
      rcases List.mem_cons.mp he2 with heq | hmem
      · rw [heq]
        exact ⟨rfl, rfl⟩
      · exact hprops e2 hmem
    · rw [hnext]
      show tbl.nextId + 1 + rest.length = tbl.nextId + (rest.length + 1)
      omega
    · exact hcols
    · rw [hcnt]
      show n + 1 + rest.length = n + (rest.length + 1)
      omega
    · exact hskip

/-- Reduction of the delete loop at an item. -/
theorem deletesLoop_cons (rev now : Nat) (tbl : Table) (item : DeleteItem)
    (rest : List DeleteItem) (d s : Nat) :
    deletesLoop rev now tbl (item :: rest) d s =
      deletesLoop rev now (deleteStep rev now tbl item) rest (d + 1) s := by
  conv_lhs => rw [deletesLoop.eq_def]

/-- The delete loop preserves the column list, the serial counter, and every
row's id. -/
theorem deletesLoop_state (rev now : Nat) (items : List DeleteItem) :
    ∀ (tbl : Table) (d s : Nat),
      ((deletesLoop rev now tbl items d s).1).cols = tbl.cols ∧
      ((deletesLoop rev now tbl items d s).1).nextId = tbl.nextId ∧
      ((deletesLoop rev now tbl items d s).1).rows.map (fun e => e.id) =
        tbl.rows.map (fun e => e.id) := by
  induction items with
  | nil =>
    intro tbl d s
    exact ⟨rfl, rfl, rfl⟩
  | cons item rest ih =>
    intro tbl d s
    rw [deletesLoop_cons rev now tbl item rest d s, deleteStep_rows rev now tbl item]
    obtain ⟨hc, hn, hp⟩ := ih { tbl with rows := tbl.rows.map (deleteStepEntry rev now item) } (d + 1) s
    refine ⟨hc, hn, hp.trans ?_⟩
    show (tbl.rows.map (deleteStepEntry rev now item)).map (fun e => e.id) = _
    rw [List.map_map]
    apply List.map_congr_left
    intro e _
    exact deleteStepEntry_id rev now item e

/-- Every row after the delete loop is an original row or carries the pass
revision. -/
theorem deletesLoop_orig_or_rev (rev now : Nat) (items : List DeleteItem) :
    ∀ (tbl : Table) (d s : Nat),
      ∀ e2 ∈ ((deletesLoop rev now tbl items d s).1).rows,
        e2 ∈ tbl.rows ∨ e2.revision = rev := by
  induction items with
  | nil =>
    intro tbl d s e2 he2
    exact Or.inl he2
  | cons item rest ih =>
    intro tbl d s e2 he2
    rw [deletesLoop_cons rev now tbl item rest d s,
      deleteStep_rows rev now tbl item] at he2
    rcases ih _ (d + 1) s e2 he2 with hmem | hrev
    · obtain ⟨e, he, hge⟩ := List.mem_map.mp hmem
      rcases deleteStepEntry_cases rev now item e with heq | htom
      · exact Or.inl (by rw [← hge, heq]; exact he)
      · refine Or.inr ?_
        rw [← hge, htom]
    · exact Or.inr hrev

/-- The delete loop leaves already tombstoned entries exactly as they are. -/
theorem deletesLoop_preserves_dead (rev now : Nat) (items : List DeleteItem) :
    ∀ (tbl : Table) (d s : Nat) (e : Entry), e ∈ tbl.rows → e.deleted_at ≠ none →
      e ∈ ((deletesLoop rev now tbl items d s).1).rows := by
  induction items with
  | nil =>
    intro tbl d s e he _
    exact he
  | cons item rest ih =>
    intro tbl d s e he hdead
    rw [deletesLoop_cons rev now tbl item rest d s, deleteStep_rows rev now tbl item]
    refine ih _ (d + 1) s e ?_ hdead
    have hmm := List.mem_map_of_mem (deleteStepEntry rev now item) he
    rw [deleteStepEntry_of_dead rev now item e hdead] at hmm
    exact hmm

/-- The delete loop leaves entries referenced by no item exactly as they are. -/
theorem deletesLoop_preserves_unref (rev now : Nat) (items : List DeleteItem) :
    ∀ (tbl : Table) (d s : Nat) (e : Entry), e ∈ tbl.rows →
      (∀ it ∈ items, ¬ ((hasDbId it.dbId = true ∧ it.dbId = some e.id) ∨
        (hasDbId it.dbId = false ∧ it.hash = e.row_hash))) →
      e ∈ ((deletesLoop rev now tbl items d s).1).rows := by
  induction items with
  | nil =>
    intro tbl d s e he _
    exact he
  | cons item rest ih =>
    intro tbl d s e he href
    rw [deletesLoop_cons rev now tbl item rest d s, deleteStep_rows rev now tbl item]
    refine ih _ (d + 1) s e ?_ (fun it hit => href it (List.mem_cons_of_mem item hit))
    have hmm := List.mem_map_of_mem (deleteStepEntry rev now item) he
    rw [deleteStepEntry_of_unref rev now item e
      (href item (List.mem_cons_self item rest))] at hmm
    exact hmm

/-- The delete-loop counters: every item is counted as deleted, none skipped. -/
theorem deletesLoop_counts (rev now : Nat) (items : List DeleteItem) :
    ∀ (tbl : Table) (d s : Nat),
      (deletesLoop rev now tbl items d s).2.1 = d + items.length ∧
      (deletesLoop rev now tbl items d s).2.2 = s := by
  induction items with
  | nil =>
    intro tbl d s
    exact ⟨by simp [deletesLoop], by simp [deletesLoop]⟩
  | cons item rest ih =>
    intro tbl d s
    rw [deletesLoop_cons rev now tbl item rest d s]
    obtain ⟨h1, h2⟩ := ih (deleteStep rev now tbl item) (d + 1) s
    constructor
    · rw [h1]
      simp
      omega
    · exact h2

/-- The delete loop propagates a per-row property that soft deleting
preserves: any property depending only on the implication from a low id bound
to the revision stamp. -/
theorem deletesLoop_id_rev (rev now : Nat) (items : List DeleteItem) (bound : Nat) :
    ∀ (tbl : Table) (d s : Nat),
      (∀ e ∈ tbl.rows, bound ≤ e.id → e.revision = rev) →
      ∀ e2 ∈ ((deletesLoop rev now tbl items d s).1).rows,
        bound ≤ e2.id → e2.revision = rev := by
  induction items with
  | nil =>
    intro tbl d s hP e2 he2
    exact hP e2 he2
  | cons item rest ih =>
    intro tbl d s hP e2 he2
    rw [deletesLoop_cons rev now tbl item rest d s,
      deleteStep_rows rev now tbl item] at he2
    refine ih _ (d + 1) s ?_ e2 he2
    intro e3 he3 hb
    obtain ⟨e, he, hge⟩ := List.mem_map.mp he3
    rcases deleteStepEntry_cases rev now item e with heq | htom
    · rw [← hge, heq] at hb ⊢
      exact hP e he hb
    · rw [← hge, htom]

/-- If some item of the delete loop targets an entry that is active when the
loop starts, the entry ends tombstoned with the pass timestamp and revision. -/
theorem deletesLoop_reach (rev now : Nat) (items : List DeleteItem) (i : Nat) :
    ∀ (tbl : Table) (d s : Nat) (e : Entry), e ∈ tbl.rows → e.id = i →
      e.deleted_at = none →
      (∃ item ∈ items, item.dbId = some i ∧ i ≠ 0) →
      ∃ e2 ∈ ((deletesLoop rev now tbl items d s).1).rows,
        e2.id = i ∧ e2.deleted_at = some now ∧ e2.revision = rev := by
  induction items with
  | nil =>
    intro tbl d s e _ _ _ htarget
    obtain ⟨item, hmem, _⟩ := htarget
    exact absurd hmem (List.not_mem_nil item)
  | cons item rest ih =>
    intro tbl d s e he hid hact htarget
    rw [deletesLoop_cons rev now tbl item rest d s, deleteStep_rows rev now tbl item]
    by_cases hthis : item.dbId = some i ∧ i ≠ 0
    · -- this very item tombstones the entry
      have htom := deleteStepEntry_target rev now item e i hthis.1 hthis.2 hid hact
      have hmm := List.mem_map_of_mem (deleteStepEntry rev now item) he
      rw [htom] at hmm
      exact ⟨{ e with deleted_at := some now, revision := rev },
        deletesLoop_preserves_dead rev now rest _ (d + 1) s _ hmm (by simp),
        hid, rfl, rfl⟩
    · -- the target sits in the rest of the list
      have htarget2 : ∃ it ∈ rest, it.dbId = some i ∧ i ≠ 0 := by
        obtain ⟨it, hmem, hprops⟩ := htarget
        rcases List.mem_cons.mp hmem with heq | hmem2
        · exact absurd (heq ▸ hprops) hthis
        · exact ⟨it, hmem2, hprops⟩
      rcases deleteStepEntry_cases rev now item e with heq | htom
      · -- the entry survives this item untouched and stays active
        have hmm := List.mem_map_of_mem (deleteStepEntry rev now item) he
        rw [heq] at hmm
        exact ih _ (d + 1) s e hmm hid hact htarget2
      · -- this item already tombstones it (hash fallback); it then persists
        have hmm := List.mem_map_of_mem (deleteStepEntry rev now item) he
        rw [htom] at hmm
        refine ⟨{ e with deleted_at := some now, revision := rev },
          deletesLoop_preserves_dead rev now rest _ (d + 1) s _ hmm (by simp), hid, rfl, rfl⟩

/-! ### applyDiff assembly -/

/-- A successful `applyDiff` means the schema check passed and the result is
the three-phase composition. -/
theorem applyDiff_ok_elim {tbl : Table} {columns : List String} {diff : DiffResult}
    {rev now : Nat} {res : ApplyResult} {tbl2 : Table}
    (h : applyDiff tbl columns diff rev now = Except.ok (res, tbl2)) :
    (missingColumns tbl (buildSanitizedColumns columns)).isEmpty = true ∧
    (res, tbl2) = applyDiffPhases tbl columns diff rev now := by
  unfold applyDiff at h
  by_cases hm : (missingColumns tbl (buildSanitizedColumns columns)).isEmpty = true
  · rw [if_pos hm] at h
    exact ⟨hm, (Except.ok.inj h).symm⟩
  · rw [if_neg hm] at h
    exact absurd h (by simp)

/-- The table produced by the phases is the delete loop's output over the
insert loop's output over the update loop's output. -/
theorem applyDiffPhases_table (tbl : Table) (columns : List String)
    (diff : DiffResult) (rev now : Nat) :
    (applyDiffPhases tbl columns diff rev now).2 =
      (deletesLoop rev now
        (insertsLoop columns (buildSanitizedColumns columns) rev
          (updatesLoop columns (buildSanitizedColumns columns) rev tbl diff.updates 0 0).1
          diff.inserts 0
          (updatesLoop columns (buildSanitizedColumns columns) rev tbl diff.updates 0 0).2.2).1
        diff.deletes 0
        (insertsLoop columns (buildSanitizedColumns columns) rev
          (updatesLoop columns (buildSanitizedColumns columns) rev tbl diff.updates 0 0).1
          diff.inserts 0
          (updatesLoop columns (buildSanitizedColumns columns) rev tbl diff.updates 0 0).2.2).2.2).1 :=
  rfl

/-- The counter components of the phases. -/
theorem applyDiffPhases_counts (tbl : Table) (columns : List String)
    (diff : DiffResult) (rev now : Nat) :
    (applyDiffPhases tbl columns diff rev now).1.updated =
      (updatesLoop columns (buildSanitizedColumns columns) rev tbl diff.updates 0 0).2.1 ∧
    (applyDiffPhases tbl columns diff rev now).1.skipped =
      (deletesLoop rev now
        (insertsLoop columns (buildSanitizedColumns columns) rev
          (updatesLoop columns (buildSanitizedColumns columns) rev tbl diff.updates 0 0).1
          diff.inserts 0
          (updatesLoop columns (buildSanitizedColumns columns) rev tbl diff.updates 0 0).2.2).1
        diff.deletes 0
        (insertsLoop columns (buildSanitizedColumns columns) rev
          (updatesLoop columns (buildSanitizedColumns columns) rev tbl diff.updates 0 0).1
          diff.inserts 0
          (updatesLoop columns (buildSanitizedColumns columns) rev tbl diff.updates 0 0).2.2).2.2).2.2 :=
  ⟨rfl, rfl⟩

/-- The well-formedness of the table survives `applyDiff`: ids remain distinct
and below the serial counter. -/
theorem applyDiff_WF {tbl : Table} {columns : List String} {diff : DiffResult}
    {rev now : Nat} {res : ApplyResult} {tbl2 : Table} (hwf : WFTable tbl)
    (hok : applyDiff tbl columns diff rev now = Except.ok (res, tbl2)) :
    WFTable tbl2 := by
  obtain ⟨-, hphases⟩ := applyDiff_ok_elim hok
  have htbl2 : tbl2 = (applyDiffPhases tbl columns diff rev now).2 := by
    rw [← hphases]
  rw [applyDiffPhases_table] at htbl2
  obtain ⟨hc1, hn1, hp1⟩ := updatesLoop_state columns (buildSanitizedColumns columns)
    rev diff.updates tbl 0 0
  obtain ⟨news, hrows2, hids2, hprops2, hnext2, hcols2, -, -⟩ :=
    insertsLoop_spec columns (buildSanitizedColumns columns) rev diff.inserts
      (updatesLoop columns (buildSanitizedColumns columns) rev tbl diff.updates 0 0).1
      0 (updatesLoop columns (buildSanitizedColumns columns) rev tbl diff.updates 0 0).2.2
  obtain ⟨hc3, hn3, hp3⟩ := deletesLoop_state rev now diff.deletes
    (insertsLoop columns (buildSanitizedColumns columns) rev
      (updatesLoop columns (buildSanitizedColumns columns) rev tbl diff.updates 0 0).1
      diff.inserts 0
      (updatesLoop columns (buildSanitizedColumns columns) rev tbl diff.updates 0 0).2.2).1
    0
    (insertsLoop columns (buildSanitizedColumns columns) rev
      (updatesLoop columns (buildSanitizedColumns columns) rev tbl diff.updates 0 0).1
      diff.inserts 0
      (updatesLoop columns (buildSanitizedColumns columns) rev tbl diff.updates 0 0).2.2).2.2
  have hids1 : (updatesLoop columns (buildSanitizedColumns columns) rev tbl
      diff.updates 0 0).1.rows.map (fun e => e.id) = tbl.rows.map (fun e => e.id) := by
    have := congrArg (List.map Prod.fst) hp1
    rw [List.map_map, List.map_map] at this
    exact this
  have hidsfinal : tbl2.rows.map (fun e => e.id) =
      tbl.rows.map (fun e => e.id) ++ List.range' tbl.nextId diff.inserts.length := by
    rw [htbl2, hp3, hrows2, List.map_append, hids1, hids2, hn1]
  constructor
  · rw [hidsfinal]
    rw [List.nodup_append]
    refine ⟨hwf.1, by simp [List.nodup_range'], ?_⟩
    intro a ha ha2
    obtain ⟨e, he, hge⟩ := List.mem_map.mp ha
    have hlt := hwf.2 e he
    have hge2 := (List.mem_range'_1.mp ha2).1
    omega
  · intro e2 he2
    have hnext3 : tbl2.nextId = tbl.nextId + diff.inserts.length := by
      rw [htbl2, hn3, hnext2, hn1]
    have hid2 : e2.id ∈ tbl2.rows.map (fun e => e.id) := List.mem_map_of_mem _ he2
    rw [hidsfinal] at hid2
    rcases List.mem_append.mp hid2 with hold | hnew
    · obtain ⟨e, he, hge⟩ := List.mem_map.mp hold
      have := hwf.2 e he
      omega
    · have := List.mem_range'_1.mp hnew
      omega

/-- C4: when the sanitized columns include one absent from the physical
table, both `applyDiff` and `storeSnapshot` fail with the schema-mismatch
error; the check runs before the mutation loops, the transaction rolls back,
and the caller-visible snapshot state is exactly the old table. -/
theorem C4_schema_mismatch (tbl : Table) (columns : List String) (diff : DiffResult)
    (rev now : Nat) (data : List Row)
    (h : missingColumns tbl (buildSanitizedColumns columns) ≠ []) :
    applyDiff tbl columns diff rev now =
      Except.error (schemaErrorMsg (missingColumns tbl (buildSanitizedColumns columns))) ∧
    applyDiffState tbl columns diff rev now = tbl ∧
    storeSnapshot tbl columns data =
      Except.error (schemaErrorMsg (missingColumns tbl (buildSanitizedColumns columns))) ∧
    storeSnapshotState tbl columns data = tbl := by
  have hne : ¬ (missingColumns tbl (buildSanitizedColumns columns)).isEmpty = true := by
    simpa using h
  have hA : applyDiff tbl columns diff rev now =
      Except.error (schemaErrorMsg (missingColumns tbl (buildSanitizedColumns columns))) := by
    unfold applyDiff
    rw [if_neg hne]
  have hS : storeSnapshot tbl columns data =
      Except.error (schemaErrorMsg (missingColumns tbl (buildSanitizedColumns columns))) := by
    unfold storeSnapshot
    rw [if_neg hne]
  refine ⟨hA, ?_, hS, ?_⟩
  · unfold applyDiffState
    rw [hA]
  · unfold storeSnapshotState
    rw [hS]

/-- Concrete instantiation of `C4_schema_mismatch`: a table with no data
columns rejects a diff over column `"a"` and is left unchanged. -/
theorem C4_schema_mismatch_witness :
    applyDiff ⟨[], [], 1⟩ ["a"] ⟨[], [], [], 0⟩ 1 0 =
      Except.error (schemaErrorMsg (missingColumns ⟨[], [], 1⟩
        (buildSanitizedColumns ["a"]))) ∧
    applyDiffState ⟨[], [], 1⟩ ["a"] ⟨[], [], [], 0⟩ 1 0 = ⟨[], [], 1⟩ ∧
    storeSnapshot ⟨[], [], 1⟩ ["a"] [] =
      Except.error (schemaErrorMsg (missingColumns ⟨[], [], 1⟩
        (buildSanitizedColumns ["a"]))) ∧
    storeSnapshotState ⟨[], [], 1⟩ ["a"] [] = ⟨[], [], 1⟩ :=
  C4_schema_mismatch ⟨[], [], 1⟩ ["a"] ⟨[], [], [], 0⟩ 1 0 [] (by decide)

/-- C10: an update item whose `dbId` is missing or otherwise falsy performs
no write against the table (the state passed to the rest of the loop is the
very same), increments `skipped` by one, and the loop continues with the
remaining items of the batch. -/
theorem C10_falsy_dbid_skipped (c sc : List String) (rev : Nat) (tbl : Table)
    (item : UpdateItem) (rest : List UpdateItem) (updated skipped : Nat)
    (h : item.dbId = none ∨ item.dbId = some 0) :
    updatesLoop c sc rev tbl (item :: rest) updated skipped =
      updatesLoop c sc rev tbl rest updated (skipped + 1) := by
  rcases h with h | h
  · exact updatesLoop_cons_none c sc rev tbl item rest updated skipped h
  · exact updatesLoop_cons_zero c sc rev tbl item rest updated skipped h

/-- Concrete instantiation of `C10_falsy_dbid_skipped` at an item with no
`dbId`. -/
theorem C10_falsy_dbid_skipped_witness :
    updatesLoop ["a"] ["a"] 1 ⟨["a"], [], 1⟩
      [⟨fun _ => none, "h", "r", ⟨fun _ => none, none, none, none⟩, "dh", none, 0⟩]
      0 0 =
      updatesLoop ["a"] ["a"] 1 ⟨["a"], [], 1⟩ [] 0 1 :=
  C10_falsy_dbid_skipped ["a"] ["a"] 1 ⟨["a"], [], 1⟩
    ⟨fun _ => none, "h", "r", ⟨fun _ => none, none, none, none⟩, "dh", none, 0⟩
    [] 0 0 (Or.inl rfl)

/-- C6 fails as stated, at a concrete input: an update item with truthy
`dbId 1` targets the entry with id 1 whose `deleted_at` is `some 5` (already
soft-deleted). The update is indeed a no-op on the state — the table comes
back unchanged — but the result counts the row as `updated = 1`,
`skipped = 0`, not as skipped. -/
theorem C6_counterexample :
    (⟨1, "h1", 1, "sheet", some 5, [some "x"]⟩ : Entry).deleted_at ≠ none ∧
    applyDiff ⟨["a"], [⟨1, "h1", 1, "sheet", some 5, [some "x"]⟩], 2⟩ ["a"]
      ⟨[], [⟨fun c => if c = "a" then some "y" else none, "h2", "rid",
        ⟨fun _ => none, none, none, some 1⟩, "h1", some 1, 0⟩], [], 0⟩ 2 100 =
      Except.ok (⟨0, 1, 0, 0⟩,
        ⟨["a"], [⟨1, "h1", 1, "sheet", some 5, [some "x"]⟩], 2⟩) := by
  constructor
  · simp
  · rfl

/-- C6 amended: an update item whose truthy `dbId` targets a soft-deleted
entry leaves that entry byte-for-byte unmodified (the `WHERE ... AND
deleted_at IS NULL` clause matches nothing), but the loop counts the item in
`updated`, not in `skipped`: `updated` counts exactly the items with truthy
`dbId` — this one included — and `skipped` exactly those without. -/
theorem C6_softdeleted_update_noop (tbl : Table) (columns : List String)
    (diff : DiffResult) (rev now : Nat) (res : ApplyResult) (tbl2 : Table)
    (u : UpdateItem) (i : Nat) (e : Entry)
    (hok : applyDiff tbl columns diff rev now = Except.ok (res, tbl2))
    (hu : u ∈ diff.updates) (hdb : u.dbId = some i) (hi0 : i ≠ 0)
    (he : e ∈ tbl.rows) (_hid : e.id = i) (hdead : e.deleted_at ≠ none) :
    e ∈ tbl2.rows ∧
    res.updated = (diff.updates.filter (fun it => hasDbId it.dbId)).length ∧
    res.skipped = (diff.updates.filter (fun it => !(hasDbId it.dbId))).length ∧
    u ∈ diff.updates.filter (fun it => hasDbId it.dbId) := by
  obtain ⟨-, hphases⟩ := applyDiff_ok_elim hok
  have hres : res = (applyDiffPhases tbl columns diff rev now).1 := by
    rw [← hphases]
  have htbl2 : tbl2 = (applyDiffPhases tbl columns diff rev now).2 := by
    rw [← hphases]
  rw [applyDiffPhases_table] at htbl2
  refine ⟨?_, ?_, ?_, ?_⟩
  · -- the soft-deleted entry survives all three phases untouched
    have h1 := updatesLoop_preserves_dead columns (buildSanitizedColumns columns)
      rev diff.updates tbl 0 0 e he hdead
    obtain ⟨news, hrows2, -, -, -, -, -, -⟩ :=
      insertsLoop_spec columns (buildSanitizedColumns columns) rev diff.inserts
        (updatesLoop columns (buildSanitizedColumns columns) rev tbl diff.updates 0 0).1
        0 (updatesLoop columns (buildSanitizedColumns columns) rev tbl diff.updates 0 0).2.2
    have h2 : e ∈ (insertsLoop columns (buildSanitizedColumns columns) rev
        (updatesLoop columns (buildSanitizedColumns columns) rev tbl diff.updates 0 0).1
        diff.inserts 0
        (updatesLoop columns (buildSanitizedColumns columns) rev tbl diff.updates 0 0).2.2).1.rows := by
      rw [hrows2]
      exact List.mem_append_left _ h1
    have h3 := deletesLoop_preserves_dead rev now diff.deletes _ 0
      (insertsLoop columns (buildSanitizedColumns columns) rev
        (updatesLoop columns (buildSanitizedColumns columns) rev tbl diff.updates 0 0).1
        diff.inserts 0
        (updatesLoop columns (buildSanitizedColumns columns) rev tbl diff.updates 0 0).2.2).2.2
      e h2 hdead
    rw [htbl2]
    exact h3
  · rw [hres, (applyDiffPhases_counts tbl columns diff rev now).1,
      (updatesLoop_counts columns (buildSanitizedColumns columns) rev diff.updates tbl 0 0).1]
    simp
  · obtain ⟨news, -, -, -, -, -, -, hskip2⟩ :=
      insertsLoop_spec columns (buildSanitizedColumns columns) rev diff.inserts
        (updatesLoop columns (buildSanitizedColumns columns) rev tbl diff.updates 0 0).1
        0 (updatesLoop columns (buildSanitizedColumns columns) rev tbl diff.updates 0 0).2.2
    rw [hres, (applyDiffPhases_counts tbl columns diff rev now).2,
      (deletesLoop_counts rev now diff.deletes _ 0 _).2, hskip2,
      (updatesLoop_counts columns (buildSanitizedColumns columns) rev diff.updates tbl 0 0).2]
    simp
  · refine List.mem_filter.mpr ⟨hu, ?_⟩
    rw [hdb]
    simp [hasDbId, hi0]

/-- Concrete instantiation of `C6_softdeleted_update_noop` on the
counterexample table. -/
theorem C6_softdeleted_update_noop_witness :
    (⟨1, "h1", 1, "sheet", some 5, [some "x"]⟩ : Entry) ∈
      (⟨["a"], [⟨1, "h1", 1, "sheet", some 5, [some "x"]⟩], 2⟩ : Table).rows ∧
    (⟨0, 1, 0, 0⟩ : ApplyResult).updated =
      ([(⟨fun c => if c = "a" then some "y" else none, "h2", "rid",
        ⟨fun _ => none, none, none, some 1⟩, "h1", some 1, 0⟩ : UpdateItem)].filter
          (fun it => hasDbId it.dbId)).length := by
  have h := C6_softdeleted_update_noop
    ⟨["a"], [⟨1, "h1", 1, "sheet", some 5, [some "x"]⟩], 2⟩ ["a"]
    ⟨[], [⟨fun c => if c = "a" then some "y" else none, "h2", "rid",
      ⟨fun _ => none, none, none, some 1⟩, "h1", some 1, 0⟩], [], 0⟩ 2 100
    ⟨0, 1, 0, 0⟩ ⟨["a"], [⟨1, "h1", 1, "sheet", some 5, [some "x"]⟩], 2⟩
    ⟨fun c => if c = "a" then some "y" else none, "h2", "rid",
      ⟨fun _ => none, none, none, some 1⟩, "h1", some 1, 0⟩ 1
    ⟨1, "h1", 1, "sheet", some 5, [some "x"]⟩
    (by rfl) (by simp) rfl (by decide) (by simp) rfl (by simp)
  exact ⟨h.1, h.2.1⟩

/-- C5: after an `applyDiff` whose diff contains a delete with truthy `dbId`
targeting an active entry, the storage row with that id still physically
exists in the table, it carries `deleted_at = some now` (non-null, the pass
timestamp) and the pass revision, and no subsequent `getSnapshot` over the
resulting table returns a row object with that id. -/
theorem C5_tombstone_invariant (tbl : Table) (columns : List String)
    (diff : DiffResult) (rev now : Nat) (res : ApplyResult) (tbl2 : Table)
    (item : DeleteItem) (i : Nat) (e : Entry)
    (hwf : WFTable tbl)
    (hok : applyDiff tbl columns diff rev now = Except.ok (res, tbl2))
    (hitem : item ∈ diff.deletes) (hdb : item.dbId = some i) (hi0 : i ≠ 0)
    (he : e ∈ tbl.rows) (hid : e.id = i) (hact : e.deleted_at = none) :
    (∃ e2 ∈ tbl2.rows, e2.id = i ∧ e2.deleted_at = some now ∧ e2.revision = rev) ∧
    (∀ obj ∈ getSnapshot tbl2 columns, obj.id ≠ i) := by
  obtain ⟨-, hphases⟩ := applyDiff_ok_elim hok
  have htbl2 : tbl2 = (applyDiffPhases tbl columns diff rev now).2 := by
    rw [← hphases]
  rw [applyDiffPhases_table] at htbl2
  -- an active entry with id `i` still exists after the update phase
  obtain ⟨-, -, hp1⟩ := updatesLoop_state columns (buildSanitizedColumns columns)
    rev diff.updates tbl 0 0
  have hpairmem : ((i, (none : Option Nat)) : Nat × Option Nat) ∈
      ((updatesLoop columns (buildSanitizedColumns columns) rev tbl diff.updates 0 0).1.rows.map
        (fun e => (e.id, e.deleted_at))) := by
    rw [hp1]
    have hm0 : ((e.id, e.deleted_at) : Nat × Option Nat) ∈
        tbl.rows.map (fun e : Entry => (e.id, e.deleted_at)) :=
      List.mem_map_of_mem _ he
    rw [hid, hact] at hm0
    exact hm0
  obtain ⟨e1, he1, hpe1⟩ := List.mem_map.mp hpairmem
  have hide1 : e1.id = i := congrArg Prod.fst hpe1
  have hacte1 : e1.deleted_at = none := congrArg Prod.snd hpe1
  -- it survives the insert phase
  obtain ⟨news, hrows2, -, -, -, -, -, -⟩ :=
    insertsLoop_spec columns (buildSanitizedColumns columns) rev diff.inserts
      (updatesLoop columns (buildSanitizedColumns columns) rev tbl diff.updates 0 0).1
      0 (updatesLoop columns (buildSanitizedColumns columns) rev tbl diff.updates 0 0).2.2
  have he1r2 : e1 ∈ (insertsLoop columns (buildSanitizedColumns columns) rev
      (updatesLoop columns (buildSanitizedColumns columns) rev tbl diff.updates 0 0).1
      diff.inserts 0
      (updatesLoop columns (buildSanitizedColumns columns) rev tbl diff.updates 0 0).2.2).1.rows := by
    rw [hrows2]
    exact List.mem_append_left _ he1
  -- the delete phase tombstones it with the pass timestamp and revision
  obtain ⟨e2, he2, hid2, hdel2, hrev2⟩ := deletesLoop_reach rev now diff.deletes i _ 0
    (insertsLoop columns (buildSanitizedColumns columns) rev
      (updatesLoop columns (buildSanitizedColumns columns) rev tbl diff.updates 0 0).1
      diff.inserts 0
      (updatesLoop columns (buildSanitizedColumns columns) rev tbl diff.updates 0 0).2.2).2.2
    e1 he1r2 hide1 hacte1 ⟨item, hitem, hdb, hi0⟩
  rw [← htbl2] at he2
  refine ⟨⟨e2, he2, hid2, hdel2, hrev2⟩, ?_⟩
  -- exclusion from getSnapshot
  intro obj hobj hcontra
  unfold getSnapshot at hobj
  obtain ⟨a, ha, hgo⟩ := List.mem_map.mp hobj
  have ha2 : a ∈ tbl2.rows.filter (fun e => decide (e.deleted_at = none)) :=
    (List.perm_insertionSort (fun a b : Entry => a.id ≤ b.id) _).mem_iff.mp ha
  have ha3 := List.mem_filter.mp ha2
  have haact : a.deleted_at = none := by
    have := ha3.2
    simpa using this
  have haid : a.id = i := by
    rw [← hgo] at hcontra
    exact hcontra
  have hwf2 := applyDiff_WF hwf hok
  have haeq : a = e2 := List.inj_on_of_nodup_map hwf2.1 ha3.1 he2 (by rw [haid, hid2])
  rw [haeq, hdel2] at haact
  exact Option.noConfusion haact

/-- Concrete instantiation of `C5_tombstone_invariant`: deleting the single
active entry of a one-row table tombstones it, keeps the physical row, and
empties the snapshot view. -/
theorem C5_tombstone_invariant_witness :
    (∃ e2 ∈ (applyDiffState ⟨["a"], [⟨1, "h1", 1, "sheet", none, [some "x"]⟩], 2⟩
        ["a"] ⟨[], [], [⟨⟨fun _ => none, none, none, some 1⟩, "h1", "rid", some 1, 0⟩], 0⟩
        7 100).rows,
      e2.id = 1 ∧ e2.deleted_at = some 100 ∧ e2.revision = 7) ∧
    (∀ obj ∈ getSnapshot (applyDiffState ⟨["a"], [⟨1, "h1", 1, "sheet", none, [some "x"]⟩], 2⟩
        ["a"] ⟨[], [], [⟨⟨fun _ => none, none, none, some 1⟩, "h1", "rid", some 1, 0⟩], 0⟩
        7 100) ["a"], obj.id ≠ 1) := by
  have hok : applyDiff ⟨["a"], [⟨1, "h1", 1, "sheet", none, [some "x"]⟩], 2⟩
      ["a"] ⟨[], [], [⟨⟨fun _ => none, none, none, some 1⟩, "h1", "rid", some 1, 0⟩], 0⟩
      7 100 =
      Except.ok (⟨0, 0, 1, 0⟩,
        ⟨["a"], [⟨1, "h1", 7, "sheet", some 100, [some "x"]⟩], 2⟩) := by rfl
  have h := C5_tombstone_invariant
    ⟨["a"], [⟨1, "h1", 1, "sheet", none, [some "x"]⟩], 2⟩ ["a"]
    ⟨[], [], [⟨⟨fun _ => none, none, none, some 1⟩, "h1", "rid", some 1, 0⟩], 0⟩
    7 100 ⟨0, 0, 1, 0⟩
    ⟨["a"], [⟨1, "h1", 7, "sheet", some 100, [some "x"]⟩], 2⟩
    ⟨⟨fun _ => none, none, none, some 1⟩, "h1", "rid", some 1, 0⟩ 1
    ⟨1, "h1", 1, "sheet", none, [some "x"]⟩
    (by constructor <;> decide) hok (by simp) rfl (by decide) (by simp) rfl rfl
  have hstate : applyDiffState ⟨["a"], [⟨1, "h1", 1, "sheet", none, [some "x"]⟩], 2⟩
      ["a"] ⟨[], [], [⟨⟨fun _ => none, none, none, some 1⟩, "h1", "rid", some 1, 0⟩], 0⟩
      7 100 = ⟨["a"], [⟨1, "h1", 7, "sheet", some 100, [some "x"]⟩], 2⟩ := by
    unfold applyDiffState
    rw [hok]
  rw [hstate]
  exact h

/-- C7: after a pass with revision `rev`, (1) every surviving row that shares
an id with an original row but differs from it carries `revision = rev`; (2)
every freshly inserted row (id at or above the old serial counter) carries
`revision = rev`; (3) every original row referenced by no item of the diff
survives with all its fields — its prior revision included — unchanged. -/
theorem C7_revision_stamping (tbl : Table) (columns : List String)
    (diff : DiffResult) (rev now : Nat) (res : ApplyResult) (tbl2 : Table)
    (hwf : WFTable tbl)
    (hok : applyDiff tbl columns diff rev now = Except.ok (res, tbl2)) :
    (∀ e ∈ tbl.rows, ∀ e2 ∈ tbl2.rows, e2.id = e.id → e2 ≠ e → e2.revision = rev) ∧
    (∀ e2 ∈ tbl2.rows, tbl.nextId ≤ e2.id → e2.revision = rev) ∧
    (∀ e ∈ tbl.rows, ¬ referencedEntry diff e → e ∈ tbl2.rows) := by
  obtain ⟨-, hphases⟩ := applyDiff_ok_elim hok
  have htbl2 : tbl2 = (applyDiffPhases tbl columns diff rev now).2 := by
    rw [← hphases]
  rw [applyDiffPhases_table] at htbl2
  obtain ⟨-, hn1, hp1⟩ := updatesLoop_state columns (buildSanitizedColumns columns)
    rev diff.updates tbl 0 0
  obtain ⟨news, hrows2, hids2, hprops2, -, -, -, -⟩ :=
    insertsLoop_spec columns (buildSanitizedColumns columns) rev diff.inserts
      (updatesLoop columns (buildSanitizedColumns columns) rev tbl diff.updates 0 0).1
      0 (updatesLoop columns (buildSanitizedColumns columns) rev tbl diff.updates 0 0).2.2
  have hids1 : (updatesLoop columns (buildSanitizedColumns columns) rev tbl
      diff.updates 0 0).1.rows.map (fun e => e.id) = tbl.rows.map (fun e => e.id) := by
    have := congrArg (List.map Prod.fst) hp1
    rw [List.map_map, List.map_map] at this
    exact this
  refine ⟨?_, ?_, ?_⟩
  · -- touched rows carry the pass revision
    intro e he e2 he2 hideq hne
    rw [htbl2] at he2
    rcases deletesLoop_orig_or_rev rev now diff.deletes _ 0 _ e2 he2 with h2 | hrev
    · rw [hrows2] at h2
      rcases List.mem_append.mp h2 with h1 | hn
      · rcases updatesLoop_orig_or_rev columns (buildSanitizedColumns columns) rev
          diff.updates tbl 0 0 e2 h1 with h0 | hrev
        · exact absurd (List.inj_on_of_nodup_map hwf.1 h0 he hideq) hne
        · exact hrev
      · exact (hprops2 e2 hn).1
    · exact hrev
  · -- inserted rows carry the pass revision
    intro e2 he2 hbound
    rw [htbl2] at he2
    refine deletesLoop_id_rev rev now diff.deletes tbl.nextId _ 0 _ ?_ e2 he2 hbound
    intro e3 he3 hb
    rw [hrows2] at he3
    rcases List.mem_append.mp he3 with h1 | hn
    · exfalso
      have : e3.id ∈ tbl.rows.map (fun e => e.id) := by
        rw [← hids1]
        exact List.mem_map_of_mem _ h1
      obtain ⟨e4, he4, hge4⟩ := List.mem_map.mp this
      have := hwf.2 e4 he4
      omega
    · exact (hprops2 e3 hn).1
  · -- unreferenced rows survive entirely unchanged
    intro e he hunref
    have hu : ∀ u ∈ diff.updates, ¬ (hasDbId u.dbId = true ∧ u.dbId = some e.id) :=
      fun u huu hc => hunref (Or.inl ⟨u, huu, hc⟩)
    have hd : ∀ dd ∈ diff.deletes,
        ¬ ((hasDbId dd.dbId = true ∧ dd.dbId = some e.id) ∨
          (hasDbId dd.dbId = false ∧ dd.hash = e.row_hash)) :=
      fun dd hdd hc => hunref (Or.inr ⟨dd, hdd, hc⟩)
    have h1 := updatesLoop_preserves_unref columns (buildSanitizedColumns columns)
      rev diff.updates tbl 0 0 e he hu
    have h2 : e ∈ (insertsLoop columns (buildSanitizedColumns columns) rev
        (updatesLoop columns (buildSanitizedColumns columns) rev tbl diff.updates 0 0).1
        diff.inserts 0
        (updatesLoop columns (buildSanitizedColumns columns) rev tbl diff.updates 0 0).2.2).1.rows := by
      rw [hrows2]
      exact List.mem_append_left _ h1
    have h3 := deletesLoop_preserves_unref rev now diff.deletes
      (insertsLoop columns (buildSanitizedColumns columns) rev
        (updatesLoop columns (buildSanitizedColumns columns) rev tbl diff.updates 0 0).1
        diff.inserts 0
        (updatesLoop columns (buildSanitizedColumns columns) rev tbl diff.updates 0 0).2.2).1
      0
      (insertsLoop columns (buildSanitizedColumns columns) rev
        (updatesLoop columns (buildSanitizedColumns columns) rev tbl diff.updates 0 0).1
        diff.inserts 0
        (updatesLoop columns (buildSanitizedColumns columns) rev tbl diff.updates 0 0).2.2).2.2
      e h2 hd
    rw [htbl2]
    exact h3

/-- Concrete instantiation of `C7_revision_stamping`: after a pass with
revision 7 that deletes entry 1 on a two-row table, the untouched entry 2
survives byte-for-byte. -/
theorem C7_revision_stamping_witness :
    (⟨2, "h2", 3, "manual", none, [some "y"]⟩ : Entry) ∈
      (applyDiffState
        ⟨["a"], [⟨1, "h1", 1, "sheet", none, [some "x"]⟩,
          ⟨2, "h2", 3, "manual", none, [some "y"]⟩], 3⟩
        ["a"] ⟨[], [], [⟨⟨fun _ => none, none, none, some 1⟩, "h1", "rid", some 1, 0⟩], 0⟩
        7 100).rows := by
  have hok : applyDiff
      ⟨["a"], [⟨1, "h1", 1, "sheet", none, [some "x"]⟩,
        ⟨2, "h2", 3, "manual", none, [some "y"]⟩], 3⟩
      ["a"] ⟨[], [], [⟨⟨fun _ => none, none, none, some 1⟩, "h1", "rid", some 1, 0⟩], 0⟩
      7 100 =
      Except.ok (⟨0, 0, 1, 0⟩,
        ⟨["a"], [⟨1, "h1", 7, "sheet", some 100, [some "x"]⟩,
          ⟨2, "h2", 3, "manual", none, [some "y"]⟩], 3⟩) := by rfl
  have h := (C7_revision_stamping
    ⟨["a"], [⟨1, "h1", 1, "sheet", none, [some "x"]⟩,
      ⟨2, "h2", 3, "manual", none, [some "y"]⟩], 3⟩
    ["a"] ⟨[], [], [⟨⟨fun _ => none, none, none, some 1⟩, "h1", "rid", some 1, 0⟩], 0⟩
    7 100 ⟨0, 0, 1, 0⟩
    ⟨["a"], [⟨1, "h1", 7, "sheet", some 100, [some "x"]⟩,
      ⟨2, "h2", 3, "manual", none, [some "y"]⟩], 3⟩
    (by constructor <;> decide) hok).2.2
    ⟨2, "h2", 3, "manual", none, [some "y"]⟩ (by simp)
    (by
      intro hc
      rcases hc with ⟨u, hu, -⟩ | ⟨d, hd, hc2⟩
      · exact absurd hu (List.not_mem_nil u)
      · have hd2 : d = ⟨⟨fun _ => none, none, none, some 1⟩, "h1", "rid", some 1, 0⟩ := by
          simpa using hd
        rcases hc2 with ⟨-, hc3⟩ | ⟨hfalsy, -⟩
        · rw [hd2] at hc3
          simp at hc3
        · rw [hd2] at hfalsy
          simp [hasDbId] at hfalsy)
  have hstate : applyDiffState
      ⟨["a"], [⟨1, "h1", 1, "sheet", none, [some "x"]⟩,
        ⟨2, "h2", 3, "manual", none, [some "y"]⟩], 3⟩
      ["a"] ⟨[], [], [⟨⟨fun _ => none, none, none, some 1⟩, "h1", "rid", some 1, 0⟩], 0⟩
      7 100 =
      ⟨["a"], [⟨1, "h1", 7, "sheet", some 100, [some "x"]⟩,
        ⟨2, "h2", 3, "manual", none, [some "y"]⟩], 3⟩ := by
    unfold applyDiffState
    rw [hok]
  rw [hstate]
  exact h
